import Mathlib

/-!
Verification of the dbase-rs dBase (.dbf) codec against its specification.

The repository's `src/lib.rs` declares the public `Error` type, its `From`
conversions and its `Display` implementation; the codec itself lives in the
`header`, `reading`, `record` and `writing` modules, whose sources are not
available here.  Where a definition embeds code from `src/lib.rs` its doc
comment says so; every other definition of the codec is modelled from the
specification (doc comments starting with `Modelled from the spec:`).

Bytes are modelled as natural numbers (values below 256 on every path the
writer produces); byte strings are `List Nat`.  Fallible operations return
`Except Error`.
-/

namespace Dbase

/-! ## Byte-string helpers: decimal digits, little-endian words, padding -/

/-- ASCII decimal digits of `n`, least significant first, with explicit fuel
so that the definition is structural and kernel-reducible. -/
def digitsRevFuel : Nat → Nat → List Nat
  | 0, _ => []
  | fuel + 1, n => if n = 0 then [] else (n % 10 + 48) :: digitsRevFuel fuel (n / 10)

/-- ASCII decimal representation of `n`, most significant digit first. -/
def natDigits (n : Nat) : List Nat :=
  if n = 0 then [48] else (digitsRevFuel n n).reverse

/-- Value of a list of ASCII digit bytes (most significant first). -/
def digitsVal (l : List Nat) : Nat :=
  l.foldl (fun a d => a * 10 + (d - 48)) 0

/-- Whether a byte is an ASCII digit. -/
def isDigitByte (b : Nat) : Bool :=
  decide (48 ≤ b) && decide (b ≤ 57)

theorem digitsRevFuel_mem {fuel n b : Nat} (h : b ∈ digitsRevFuel fuel n) :
    48 ≤ b ∧ b ≤ 57 := by
  induction fuel generalizing n with
  | zero => simp [digitsRevFuel] at h
  | succ fuel ih =>
    by_cases hn : n = 0
    · simp [digitsRevFuel, hn] at h
    · simp only [digitsRevFuel, if_neg hn, List.mem_cons] at h
      rcases h with h | h
      · subst h; omega
      · exact ih h

theorem foldl_digitsRevFuel (fuel : Nat) :
    ∀ n acc, n ≤ fuel →
      (digitsRevFuel fuel n).reverse.foldl (fun a d => a * 10 + (d - 48)) acc
        = acc * 10 ^ (digitsRevFuel fuel n).length + n := by
  induction fuel with
  | zero =>
    intro n acc h
    interval_cases n
    simp [digitsRevFuel]
  | succ fuel ih =>
    intro n acc h
    by_cases hn : n = 0
    · simp [digitsRevFuel, hn]
    · have hdiv : n / 10 ≤ fuel := by omega
      simp only [digitsRevFuel, if_neg hn, List.reverse_cons, List.foldl_append,
        List.foldl_cons, List.foldl_nil, List.length_cons]
      rw [ih (n / 10) acc hdiv]
      have hmod : n % 10 + 48 - 48 = n % 10 := by omega
      rw [hmod]
      have := Nat.div_add_mod n 10
      ring_nf
      omega

theorem digitsVal_natDigits (n : Nat) : digitsVal (natDigits n) = n := by
  by_cases hn : n = 0
  · simp [natDigits, hn, digitsVal]
  · simp only [natDigits, if_neg hn, digitsVal]
    rw [foldl_digitsRevFuel n n 0 (le_refl n)]
    simp

theorem natDigits_ne_nil (n : Nat) : natDigits n ≠ [] := by
  by_cases hn : n = 0
  · simp [natDigits, hn]
  · have h1 : 1 ≤ n := Nat.one_le_iff_ne_zero.mpr hn
    simp only [natDigits, if_neg hn, ne_eq, List.reverse_eq_nil_iff]
    cases n with
    | zero => omega
    | succ m => simp [digitsRevFuel]

theorem natDigits_mem {n b : Nat} (h : b ∈ natDigits n) : 48 ≤ b ∧ b ≤ 57 := by
  by_cases hn : n = 0
  · simp [natDigits, hn] at h; omega
  · simp only [natDigits, if_neg hn, List.mem_reverse] at h
    exact digitsRevFuel_mem h

theorem digitsRevFuel_length_le (fuel : Nat) :
    ∀ n k, n ≤ fuel → n < 10 ^ k → (digitsRevFuel fuel n).length ≤ k := by
  induction fuel with
  | zero =>
    intro n k h _
    interval_cases n
    simp [digitsRevFuel]
  | succ fuel ih =>
    intro n k hle hlt
    by_cases hn : n = 0
    · simp [digitsRevFuel, hn]
    · have hk : k ≠ 0 := by
        rintro rfl
        simp at hlt
        omega
      obtain ⟨k', rfl⟩ : ∃ k', k = k' + 1 := ⟨k - 1, by omega⟩
      have hdivle : n / 10 ≤ fuel := by omega
      have hdivlt : n / 10 < 10 ^ k' := by
        rw [pow_succ] at hlt
        omega
      simp only [digitsRevFuel, if_neg hn, List.length_cons]
      exact Nat.succ_le_succ (ih (n / 10) k' hdivle hdivlt)

theorem natDigits_length_le {n k : Nat} (hk : 0 < k) (h : n < 10 ^ k) :
    (natDigits n).length ≤ k := by
  by_cases hn : n = 0
  · simp [natDigits, hn]; omega
  · simp only [natDigits, if_neg hn, List.length_reverse]
    exact digitsRevFuel_length_le n n k (le_refl n) h

/-! ## takeWhile / dropWhile / foldl helpers -/

theorem takeWhile_all_append {p : Nat → Bool} {xs ys : List Nat}
    (h : ∀ x ∈ xs, p x = true) :
    (xs ++ ys).takeWhile p = xs ++ ys.takeWhile p := by
  induction xs with
  | nil => simp
  | cons a l ih =>
    have ha : p a = true := h a (List.mem_cons_self a l)
    have ih' := ih (fun x hx => h x (List.mem_cons_of_mem a hx))
    simp [List.takeWhile_cons, ha, ih']

theorem dropWhile_all_append {p : Nat → Bool} {xs ys : List Nat}
    (h : ∀ x ∈ xs, p x = true) :
    (xs ++ ys).dropWhile p = ys.dropWhile p := by
  induction xs with
  | nil => simp
  | cons a l ih =>
    have ha : p a = true := h a (List.mem_cons_self a l)
    have ih' := ih (fun x hx => h x (List.mem_cons_of_mem a hx))
    simp [List.dropWhile_cons, ha, ih']

theorem takeWhile_cons_neg {p : Nat → Bool} {y : Nat} {ys : List Nat}
    (h : p y = false) : (y :: ys).takeWhile p = [] := by
  simp [List.takeWhile_cons, h]

theorem dropWhile_cons_neg {p : Nat → Bool} {y : Nat} {ys : List Nat}
    (h : p y = false) : (y :: ys).dropWhile p = y :: ys := by
  simp [List.dropWhile_cons, h]

theorem foldl_digit_zeros (j : Nat) :
    List.foldl (fun a d => a * 10 + (d - 48)) 0 (List.replicate j 48) = 0 := by
  induction j with
  | zero => simp
  | succ j ih => simpa [List.replicate_succ] using ih

theorem digitsVal_zeros_append (j : Nat) (l : List Nat) :
    digitsVal (List.replicate j 48 ++ l) = digitsVal l := by
  simp only [digitsVal, List.foldl_append, foldl_digit_zeros]

/-! ## Little-endian machine words -/

/-- Little-endian byte encoding of `w` in `k` bytes. -/
def wordToLE : Nat → Nat → List Nat
  | 0, _ => []
  | k + 1, w => (w % 256) :: wordToLE k (w / 256)

/-- Value of a little-endian byte list. -/
def leToWord : List Nat → Nat
  | [] => 0
  | b :: rest => b + 256 * leToWord rest

@[simp] theorem wordToLE_length (k w : Nat) : (wordToLE k w).length = k := by
  induction k generalizing w with
  | zero => simp [wordToLE]
  | succ k ih => simp [wordToLE, ih]

theorem leToWord_wordToLE (k w : Nat) : leToWord (wordToLE k w) = w % 256 ^ k := by
  induction k generalizing w with
  | zero => simp [wordToLE, leToWord, Nat.mod_one]
  | succ k ih =>
    simp only [wordToLE, leToWord, ih]
    rw [pow_succ, mul_comm (256 ^ k) 256, Nat.mod_mul]

theorem leToWord_wordToLE_of_lt {k w : Nat} (h : w < 256 ^ k) :
    leToWord (wordToLE k w) = w := by
  rw [leToWord_wordToLE, Nat.mod_eq_of_lt h]

/-! ## Space padding and trimming -/

/-- Pad a byte string on the left with spaces to width `w` (right-justify). -/
def padLeftSpaces (w : Nat) (l : List Nat) : List Nat :=
  List.replicate (w - l.length) 32 ++ l

theorem padLeftSpaces_length {w : Nat} {l : List Nat} (h : l.length ≤ w) :
    (padLeftSpaces w l).length = w := by
  simp [padLeftSpaces]
  omega

/-- Strip leading spaces. -/
def trimLead (l : List Nat) : List Nat :=
  l.dropWhile (fun b => b == 32)

/-- Strip trailing spaces. -/
def trimTrail (l : List Nat) : List Nat :=
  (l.reverse.dropWhile (fun b => b == 32)).reverse

theorem trimLead_padLeftSpaces (w : Nat) (l : List Nat) :
    trimLead (padLeftSpaces w l) = trimLead l := by
  simp only [trimLead, padLeftSpaces]
  exact dropWhile_all_append (by intro x hx; simp_all [List.eq_of_mem_replicate hx])

theorem trimLead_of_head_ne {b : Nat} {l : List Nat} (h : b ≠ 32) :
    trimLead (b :: l) = b :: l := by
  simp only [trimLead]
  exact dropWhile_cons_neg (by simpa using h)

theorem trimTrail_append_spaces {l : List Nat} (j : Nat)
    (hne : l ≠ []) (hlast : l.getLast? ≠ some 32) :
    trimTrail (l ++ List.replicate j 32) = l := by
  simp only [trimTrail, List.reverse_append, List.reverse_replicate]
  rw [dropWhile_all_append (by intro x hx; simp_all [List.eq_of_mem_replicate hx])]
  obtain ⟨a, t, ha⟩ : ∃ a t, l.reverse = a :: t := by
    rcases hr : l.reverse with _ | ⟨a, t⟩
    · exact absurd (by simpa using congrArg List.reverse hr) hne
    · exact ⟨a, t, rfl⟩
  have hhead : l.getLast? = some a := by
    rw [← List.head?_reverse, ha]
    rfl
  have hane : a ≠ 32 := by
    intro h
    exact hlast (h ▸ hhead)
  rw [ha, dropWhile_cons_neg (by simpa using hane), ← ha, List.reverse_reverse]

theorem trimLead_eq_self {l : List Nat} (h : ∀ b ∈ l, b ≠ 32) :
    trimLead l = l := by
  cases l with
  | nil => rfl
  | cons a t =>
    exact dropWhile_cons_neg (by simpa using h a (List.mem_cons_self a t))

theorem trimTrail_eq_self {l : List Nat} (h : ∀ b ∈ l, b ≠ 32) :
    trimTrail l = l := by
  have hr : trimLead l.reverse = l.reverse :=
    trimLead_eq_self (by intro b hb; exact h b (List.mem_reverse.mp hb))
  simp only [trimLead] at hr
  simp only [trimTrail, hr, List.reverse_reverse]

theorem natDigits_head? (n : Nat) :
    ∃ h, (natDigits n).head? = some h ∧ 48 ≤ h ∧ h ≤ 57 := by
  rcases hd : natDigits n with _ | ⟨a, t⟩
  · exact absurd hd (natDigits_ne_nil n)
  · exact ⟨a, rfl, natDigits_mem (hd ▸ List.mem_cons_self a t)⟩

/-- Zero-padded fixed-width ASCII decimal representation. -/
def padDigitsTo (k n : Nat) : List Nat :=
  List.replicate (k - (natDigits n).length) 48 ++ natDigits n

theorem padDigitsTo_length {k n : Nat} (hk : 0 < k) (h : n < 10 ^ k) :
    (padDigitsTo k n).length = k := by
  have := natDigits_length_le hk h
  simp [padDigitsTo]
  omega

theorem padDigitsTo_mem {k n b : Nat} (h : b ∈ padDigitsTo k n) :
    48 ≤ b ∧ b ≤ 57 := by
  simp only [padDigitsTo, List.mem_append] at h
  rcases h with h | h
  · simp [List.eq_of_mem_replicate h]
  · exact natDigits_mem h

theorem padDigitsTo_ne_nil (k n : Nat) : padDigitsTo k n ≠ [] := by
  simp [padDigitsTo, natDigits_ne_nil n]

/-! ## The model of the dbase-rs data types -/

/-- From src/src/lib.rs: the closed set of column types named by the spec
(Character, Numeric, Float, Logical, Date, DateTime, Integer, Double,
Currency, Memo), used in the `Error::BadFieldType` payload. -/
inductive FieldType
  | character
  | numeric
  | float
  | logical
  | date
  | datetime
  | integer
  | double
  | currency
  | memo
deriving DecidableEq

/-- Modelled from the spec: the one-character type code of each field type as
stored in a 32-byte field descriptor. -/
def typeCode : FieldType → Nat
  | .character => 67
  | .numeric => 78
  | .float => 70
  | .logical => 76
  | .date => 68
  | .datetime => 84
  | .integer => 73
  | .double => 66
  | .currency => 89
  | .memo => 77

/-- From src/src/lib.rs: the `Error` enum.  Payloads of wrapped foreign
errors (`std::io::Error`, parse errors, `FieldConversionError`) are modelled
by their message strings; the `char` of `InvalidFieldType` by its code. -/
inductive Error
  | ioError (msg : String)
  | parseFloatError (msg : String)
  | parseIntError (msg : String)
  | invalidFieldType (code : Nat)
  | invalidDate
  | fieldNameTooLong
  | missingMemoFile
  | errorOpeningMemoFile (msg : String)
  | badConversion (msg : String)
  | endOfRecord
  | notEnoughFields
  | badFieldType (expected : FieldType) (got : FieldType) (fieldName : List Nat)
  | message (msg : String)
deriving DecidableEq

/-- Modelled from the spec: parsing a one-character type code; codes outside
the known set are an `InvalidFieldType` error. -/
def typeFromCode (c : Nat) : Except Error FieldType :=
  if c = 67 then .ok .character
  else if c = 78 then .ok .numeric
  else if c = 70 then .ok .float
  else if c = 76 then .ok .logical
  else if c = 68 then .ok .date
  else if c = 84 then .ok .datetime
  else if c = 73 then .ok .integer
  else if c = 66 then .ok .double
  else if c = 89 then .ok .currency
  else if c = 77 then .ok .memo
  else .error (.invalidFieldType c)

theorem typeFromCode_typeCode (t : FieldType) : typeFromCode (typeCode t) = .ok t := by
  cases t <;> rfl

/-- Modelled from the spec: a calendar date payload of a Date field. -/
structure DateValue where
  year : Nat
  month : Nat
  day : Nat
deriving DecidableEq

/-- Modelled from the spec: number of days of a month, with the leap-year
rule, used to reject calendrically invalid dates. -/
def daysInMonth (year month : Nat) : Nat :=
  if month = 2 then
    if year % 4 = 0 ∧ (year % 100 ≠ 0 ∨ year % 400 = 0) then 29 else 28
  else if month = 4 ∨ month = 6 ∨ month = 9 ∨ month = 11 then 30
  else 31

/-- Modelled from the spec: calendar validity of a date payload. -/
def DateValue.validB (d : DateValue) : Bool :=
  decide (d.year ≤ 9999) && decide (1 ≤ d.month) && decide (d.month ≤ 12)
    && decide (1 ≤ d.day) && decide (d.day ≤ daysInMonth d.year d.month)

/-- Modelled from the spec: the tagged-union runtime value of one field.
Character and Memo payloads are byte strings; Numeric and Float payloads are
the exact decimal text semantics (sign and mantissa scaled by the field's
decimal count); DateTime, Integer, Double and Currency are the raw
little-endian binary payloads of the documented widths (Double carries its
64-bit pattern, since its bytes are copied verbatim). -/
inductive FieldValue
  | character (s : Option (List Nat))
  | numeric (v : Option (Bool × Nat))
  | float (v : Option (Bool × Nat))
  | logical (b : Option Bool)
  | date (d : Option DateValue)
  | datetime (jdn msecs : Nat)
  | integer (i : Int)
  | double (bits : Nat)
  | currency (i : Int)
  | memo (s : Option (List Nat))
deriving DecidableEq

/-- Modelled from the spec: the variant tag of a runtime value. -/
def fieldTypeOf : FieldValue → FieldType
  | .character _ => .character
  | .numeric _ => .numeric
  | .float _ => .float
  | .logical _ => .logical
  | .date _ => .date
  | .datetime _ _ => .datetime
  | .integer _ => .integer
  | .double _ => .double
  | .currency _ => .currency
  | .memo _ => .memo

/-- Modelled from the spec: schema metadata for one column (name, type,
byte width, decimal count, flags), with the name kept as its raw bytes. -/
structure FieldInfo where
  name : List Nat
  fieldType : FieldType
  length : Nat
  decimalCount : Nat
  flags : Nat
deriving DecidableEq

/-- Modelled from the spec: the builder-side validation of one field
descriptor: 1-10 printable name bytes, byte-sized width/decimals/flags, and
the fixed widths of the fixed-width types (Memo slots hold a 10-digit ASCII
block reference in the classic variant modelled here). -/
def FieldInfo.validB (f : FieldInfo) : Bool :=
  decide (1 ≤ f.name.length) && decide (f.name.length ≤ 10)
    && f.name.all (fun b => decide (32 < b) && decide (b < 127))
    && decide (1 ≤ f.length) && decide (f.length < 256)
    && decide (f.decimalCount < 256) && decide (f.flags < 256)
    && (match f.fieldType with
        | .logical => decide (f.length = 1)
        | .date => decide (f.length = 8)
        | .datetime => decide (f.length = 8)
        | .integer => decide (f.length = 4)
        | .double => decide (f.length = 8)
        | .currency => decide (f.length = 8)
        | .memo => decide (f.length = 10)
        | .character => true
        | .numeric => decide (f.decimalCount = 0) || decide (f.decimalCount + 2 ≤ f.length)
        | .float => decide (f.decimalCount = 0) || decide (f.decimalCount + 2 ≤ f.length))

/-- Modelled from the spec: the companion memo file as its list of
variable-length blocks; block references are 1-based so that reference 0
means "not set". -/
structure MemoFile where
  blocks : List (List Nat)
deriving DecidableEq

/-- Modelled from the spec: the memo companion resolved at open time: found
and opened, absent, or present but unopenable. -/
inductive MemoState
  | missing
  | openFailed (msg : String)
  | opened (m : MemoFile)
deriving DecidableEq

/-! ## Numeric text codec -/

/-- Modelled from the spec: the decimal text of a Numeric/Float value whose
mantissa is scaled by `10 ^ dec`, with exactly `dec` digits after the
decimal point (no point when `dec = 0`) and a leading minus sign when
negative. -/
def numericText (neg : Bool) (mant dec : Nat) : List Nat :=
  let core :=
    if dec = 0 then natDigits mant
    else natDigits (mant / 10 ^ dec) ++ 46 :: padDigitsTo dec (mant % 10 ^ dec)
  if neg then 45 :: core else core

/-- Modelled from the spec: strict parse of an unsigned ASCII decimal. -/
def parseUnsigned (l : List Nat) : Option Nat :=
  if l ≠ [] ∧ l.all isDigitByte = true then some (digitsVal l) else none

/-- Modelled from the spec: parse of an unsigned decimal with an optional
fractional part, yielding the mantissa scaled by the written fractional
digit count. -/
def parseDecCore (l : List Nat) : Option Nat :=
  let ip := l.takeWhile (fun b => b != 46)
  match l.dropWhile (fun b => b != 46) with
  | [] => parseUnsigned ip
  | _ :: fp => do
    let i ← parseUnsigned ip
    let f ← parseUnsigned fp
    some (i * 10 ^ fp.length + f)

/-- Modelled from the spec: parse of an optionally signed decimal text. -/
def parseDecimal (l : List Nat) : Option (Bool × Nat) :=
  if l.head? = some 45 then (parseDecCore l.tail).map (fun m => (true, m))
  else (parseDecCore l).map (fun m => (false, m))

theorem parseUnsigned_natDigits (n : Nat) : parseUnsigned (natDigits n) = some n := by
  rw [parseUnsigned, if_pos, digitsVal_natDigits]
  refine ⟨natDigits_ne_nil n, ?_⟩
  rw [List.all_eq_true]
  intro b hb
  have := natDigits_mem hb
  simp [isDigitByte]
  omega

theorem parseUnsigned_padDigitsTo (k n : Nat) :
    parseUnsigned (padDigitsTo k n) = some n := by
  rw [parseUnsigned, if_pos]
  · rw [padDigitsTo, digitsVal_zeros_append, digitsVal_natDigits]
  · refine ⟨padDigitsTo_ne_nil k n, ?_⟩
    rw [List.all_eq_true]
    intro b hb
    have := padDigitsTo_mem hb
    simp [isDigitByte]
    omega

theorem numericText_mem {neg : Bool} {mant dec b : Nat}
    (h : b ∈ numericText neg mant dec) :
    b = 45 ∨ b = 46 ∨ (48 ≤ b ∧ b ≤ 57) := by
  simp only [numericText] at h
  have hcore : ∀ c, (c ∈ if dec = 0 then natDigits mant
      else natDigits (mant / 10 ^ dec) ++ 46 :: padDigitsTo dec (mant % 10 ^ dec)) →
      c = 45 ∨ c = 46 ∨ (48 ≤ c ∧ c ≤ 57) := by
    intro c hc
    by_cases hd : dec = 0
    · rw [if_pos hd] at hc
      exact Or.inr (Or.inr (natDigits_mem hc))
    · rw [if_neg hd] at hc
      rcases List.mem_append.mp hc with hc | hc
      · exact Or.inr (Or.inr (natDigits_mem hc))
      · rcases List.mem_cons.mp hc with hc | hc
        · exact Or.inr (Or.inl hc)
        · exact Or.inr (Or.inr (padDigitsTo_mem hc))
  by_cases hneg : neg = true
  · rw [if_pos hneg] at h
    rcases List.mem_cons.mp h with h | h
    · exact Or.inl h
    · exact hcore b h
  · rw [if_neg hneg] at h
    exact hcore b h

theorem numericText_ne_nil (neg : Bool) (mant dec : Nat) :
    numericText neg mant dec ≠ [] := by
  simp only [numericText]
  by_cases hd : dec = 0 <;> by_cases hneg : neg = true <;>
    simp [hd, hneg, natDigits_ne_nil]

theorem parseDecCore_core (mant dec : Nat) :
    parseDecCore (if dec = 0 then natDigits mant
      else natDigits (mant / 10 ^ dec) ++ 46 :: padDigitsTo dec (mant % 10 ^ dec))
      = some mant := by
  by_cases hd : dec = 0
  · rw [if_pos hd, parseDecCore]
    have hall : ∀ x ∈ natDigits mant, (x != 46) = true := by
      intro x hx
      have := natDigits_mem hx
      simp
      omega
    rw [List.takeWhile_eq_self_iff.mpr hall, List.dropWhile_eq_nil_iff.mpr hall]
    exact parseUnsigned_natDigits mant
  · rw [if_neg hd, parseDecCore]
    have hall : ∀ x ∈ natDigits (mant / 10 ^ dec), ((fun b => b != 46) x) = true := by
      intro x hx
      have := natDigits_mem hx
      simp
      omega
    rw [takeWhile_all_append hall, dropWhile_all_append hall,
      takeWhile_cons_neg (by simp), dropWhile_cons_neg (by simp)]
    simp only [List.append_nil]
    rw [parseUnsigned_natDigits, parseUnsigned_padDigitsTo]
    have hlen : (padDigitsTo dec (mant % 10 ^ dec)).length = dec :=
      padDigitsTo_length (by omega) (Nat.mod_lt _ (by positivity))
    simp only [Option.bind_eq_bind, Option.some_bind, hlen]
    rw [mul_comm (mant / 10 ^ dec) (10 ^ dec), Nat.div_add_mod]

theorem parseDecimal_numericText (neg : Bool) (mant dec : Nat) :
    parseDecimal (numericText neg mant dec) = some (neg, mant) := by
  have hcore := parseDecCore_core mant dec
  simp only [numericText]
  set core := (if dec = 0 then natDigits mant
    else natDigits (mant / 10 ^ dec) ++ 46 :: padDigitsTo dec (mant % 10 ^ dec))
    with hcoredef
  have hhead : ∃ h, core.head? = some h ∧ 48 ≤ h ∧ h ≤ 57 := by
    by_cases hd : dec = 0
    · rw [hcoredef, if_pos hd]
      exact natDigits_head? mant
    · rw [hcoredef, if_neg hd]
      obtain ⟨h, hh, h1, h2⟩ := natDigits_head? (mant / 10 ^ dec)
      refine ⟨h, ?_, h1, h2⟩
      rcases hds : natDigits (mant / 10 ^ dec) with _ | ⟨a, t⟩
      · exact absurd hds (natDigits_ne_nil _)
      · rw [hds] at hh
        simpa using hh
  obtain ⟨h, hh, h48, h57⟩ := hhead
  cases neg with
  | true =>
    simp only [if_pos]
    rw [parseDecimal]
    simp only [List.head?_cons, List.tail_cons, if_pos rfl]
    rw [hcore]
    rfl
  | false =>
    simp only [Bool.false_eq_true, if_neg, if_false]
    rw [parseDecimal, if_neg (by rw [hh]; intro hc; simp at hc; omega), hcore]
    rfl

/-! ## Field value codec -/

/-- Modelled from the spec: the single byte written for a Logical value
(true, false, or not set). -/
def logicalByte : Option Bool → Nat
  | some true => 84
  | some false => 70
  | none => 63

/-- Modelled from the spec: decoding the single byte of a Logical field:
T, t, Y and y are true; F, f, N and n are false; a question mark and a
space are not set; every other byte is an error. -/
def decodeLogicalByte (b : Nat) : Except Error (Option Bool) :=
  if b = 84 ∨ b = 116 ∨ b = 89 ∨ b = 121 then .ok (some true)
  else if b = 70 ∨ b = 102 ∨ b = 78 ∨ b = 110 then .ok (some false)
  else if b = 63 ∨ b = 32 then .ok none
  else .error (.message "invalid logical value byte")

/-- Two's-complement word of width `k` holding `i`. -/
def intToWord (k : Nat) (i : Int) : Nat := (i % (2 : Int) ^ k).toNat

/-- Signed value of a `k`-bit two's-complement word. -/
def wordToInt (k : Nat) (n : Nat) : Int :=
  if n < 2 ^ (k - 1) then (n : Int) else (n : Int) - 2 ^ k

/-- Modelled from the spec: the 8-byte YYYYMMDD text of a Date value. -/
def dateText (d : DateValue) : List Nat :=
  padDigitsTo 4 d.year ++ padDigitsTo 2 d.month ++ padDigitsTo 2 d.day

/-- Trim both leading and trailing spaces of a fixed-width slot. -/
def trimBoth (l : List Nat) : List Nat := trimTrail (trimLead l)

/-- Modelled from the spec: `FieldWriter::write_next_field_value` for one
value against one declared field: a variant mismatch is a `BadFieldType`
error naming the expected type, the actual type and the field name;
Character text is left-justified and space-padded, Numeric/Float text is
right-justified, Logical is its single byte, Date is YYYYMMDD text,
DateTime/Integer/Double/Currency are little-endian binary, and a Memo
payload is appended to the memo file as a new block whose 1-based index is
written as right-justified ASCII digits. -/
def writeValue (info : FieldInfo) (v : FieldValue) (m : MemoFile) :
    Except Error (List Nat × MemoFile) :=
  if fieldTypeOf v ≠ info.fieldType then
    .error (.badFieldType info.fieldType (fieldTypeOf v) info.name)
  else
    match v with
    | .character none => .ok (List.replicate info.length 32, m)
    | .character (some s) =>
      if s.length ≤ info.length then
        .ok (s ++ List.replicate (info.length - s.length) 32, m)
      else .error (.message "character value does not fit the field width")
    | .numeric none => .ok (List.replicate info.length 32, m)
    | .numeric (some (neg, mant)) =>
      let t := numericText neg mant info.decimalCount
      if t.length ≤ info.length then .ok (padLeftSpaces info.length t, m)
      else .error (.message "numeric value does not fit the field width")
    | .float none => .ok (List.replicate info.length 32, m)
    | .float (some (neg, mant)) =>
      let t := numericText neg mant info.decimalCount
      if t.length ≤ info.length then .ok (padLeftSpaces info.length t, m)
      else .error (.message "float value does not fit the field width")
    | .logical b => .ok ([logicalByte b], m)
    | .date none => .ok (List.replicate info.length 32, m)
    | .date (some d) => .ok (dateText d, m)
    | .datetime a b => .ok (wordToLE 4 a ++ wordToLE 4 b, m)
    | .integer i => .ok (wordToLE 4 (intToWord 32 i), m)
    | .double w => .ok (wordToLE 8 w, m)
    | .currency i => .ok (wordToLE 8 (intToWord 64 i), m)
    | .memo none => .ok (List.replicate info.length 32, m)
    | .memo (some c) =>
      let idx := m.blocks.length + 1
      let t := natDigits idx
      if t.length ≤ info.length then
        .ok (padLeftSpaces info.length t, { blocks := m.blocks ++ [c] })
      else .error (.message "memo block index does not fit the field width")

/-- Modelled from the spec: decoding one fixed-width slot according to the
declared field type.  Character trims trailing spaces with an all-space
slot decoding to not set; Numeric/Float parse the trimmed decimal text,
blank means not set, and a malformed slot is a wrapped parse error; Logical
decodes its single byte; Date is validated YYYYMMDD text; the binary types
are read little-endian; Memo resolves a non-empty non-zero block reference
through the memo companion, failing with `MissingMemoFile` when it was
absent at open time and `ErrorOpeningMemoFile` when it could not be
opened, while a blank or zero reference is not set without touching the
memo state. -/
def decodeValue (info : FieldInfo) (slot : List Nat) (st : MemoState) :
    Except Error FieldValue :=
  match info.fieldType with
  | .character =>
    let t := trimTrail slot
    .ok (.character (if t = [] then none else some t))
  | .numeric =>
    let t := trimBoth slot
    if t = [] then .ok (.numeric none)
    else
      match parseDecimal t with
      | some (neg, mant) => .ok (.numeric (some (neg, mant)))
      | none => .error (.parseFloatError "invalid float literal")
  | .float =>
    let t := trimBoth slot
    if t = [] then .ok (.float none)
    else
      match parseDecimal t with
      | some (neg, mant) => .ok (.float (some (neg, mant)))
      | none => .error (.parseFloatError "invalid float literal")
  | .logical =>
    match slot with
    | [b] => (decodeLogicalByte b).map .logical
    | _ => .error (.message "logical slot must be a single byte")
  | .date =>
    let t := trimBoth slot
    if t = [] then .ok (.date none)
    else if slot.length = 8 ∧ slot.all isDigitByte = true then
      let d : DateValue :=
        { year := digitsVal (slot.take 4)
          month := digitsVal ((slot.drop 4).take 2)
          day := digitsVal (slot.drop 6) }
      if d.validB = true then .ok (.date (some d)) else .error .invalidDate
    else .error .invalidDate
  | .datetime =>
    if slot.length = 8 then
      .ok (.datetime (leToWord (slot.take 4)) (leToWord (slot.drop 4)))
    else .error (.message "datetime slot must be 8 bytes")
  | .integer =>
    if slot.length = 4 then .ok (.integer (wordToInt 32 (leToWord slot)))
    else .error (.message "integer slot must be 4 bytes")
  | .double =>
    if slot.length = 8 then .ok (.double (leToWord slot))
    else .error (.message "double slot must be 8 bytes")
  | .currency =>
    if slot.length = 8 then .ok (.currency (wordToInt 64 (leToWord slot)))
    else .error (.message "currency slot must be 8 bytes")
  | .memo =>
    let t := trimBoth slot
    if t = [] then .ok (.memo none)
    else
      match parseUnsigned t with
      | none => .error (.parseIntError "invalid memo block index")
      | some 0 => .ok (.memo none)
      | some (idx + 1) =>
        match st with
        | .missing => .error .missingMemoFile
        | .openFailed msg => .error (.errorOpeningMemoFile msg)
        | .opened mf =>
          match mf.blocks[idx]? with
          | some c => .ok (.memo (some c))
          | none => .error (.message "memo block index out of range")

/-- Modelled from the spec: whether a value payload fits its declared
field (widths, numeric text width, date validity, binary ranges). -/
def payloadFitsB (info : FieldInfo) : FieldValue → Bool
  | .character none => true
  | .character (some s) =>
    decide (s.length ≤ info.length) && s.all (fun b => decide (b < 256))
  | .numeric none => true
  | .numeric (some (neg, mant)) =>
    decide ((numericText neg mant info.decimalCount).length ≤ info.length)
  | .float none => true
  | .float (some (neg, mant)) =>
    decide ((numericText neg mant info.decimalCount).length ≤ info.length)
  | .logical _ => true
  | .date none => true
  | .date (some d) => d.validB
  | .datetime a b => decide (a < 2 ^ 32) && decide (b < 2 ^ 32)
  | .integer i => decide (-(2 ^ 31) ≤ i) && decide (i < 2 ^ 31)
  | .double w => decide (w < 2 ^ 64)
  | .currency i => decide (-(2 ^ 63) ≤ i) && decide (i < 2 ^ 63)
  | .memo _ => true

/-- Whether a value is in canonical form, i.e. survives the reader's
trailing-space trimming and blank-means-not-set policy unchanged: a set
Character payload must be non-empty and must not end in a space. -/
def canonValueB : FieldValue → Bool
  | .character (some s) => !s.isEmpty && !(s.getLast? == some 32)
  | _ => true

theorem trimLead_replicate_spaces (j : Nat) :
    trimLead (List.replicate j 32) = [] := by
  simp only [trimLead]
  rw [List.dropWhile_eq_nil_iff]
  intro x hx
  simp [List.eq_of_mem_replicate hx]

theorem trimBoth_replicate_spaces (j : Nat) :
    trimBoth (List.replicate j 32) = [] := by
  simp [trimBoth, trimLead_replicate_spaces, trimTrail]

theorem trimTrail_replicate_spaces (j : Nat) :
    trimTrail (List.replicate j 32) = [] := by
  simp only [trimTrail, List.reverse_replicate]
  rw [List.dropWhile_eq_nil_iff.mpr]
  · rfl
  · intro x hx
    simp [List.eq_of_mem_replicate hx]

theorem intToWord32_lt (i : Int) : intToWord 32 i < 2 ^ 32 := by
  simp only [intToWord]
  have h1 : i % (2 : Int) ^ 32 < 2 ^ 32 :=
    Int.emod_lt_of_pos i (by positivity)
  have h2 : (0 : Int) ≤ i % (2 : Int) ^ 32 :=
    Int.emod_nonneg i (by positivity)
  norm_num at h1 h2 ⊢
  omega

theorem intToWord64_lt (i : Int) : intToWord 64 i < 2 ^ 64 := by
  simp only [intToWord]
  have h1 : i % (2 : Int) ^ 64 < 2 ^ 64 :=
    Int.emod_lt_of_pos i (by positivity)
  have h2 : (0 : Int) ≤ i % (2 : Int) ^ 64 :=
    Int.emod_nonneg i (by positivity)
  norm_num at h1 h2 ⊢
  omega

theorem wordToInt32_intToWord {i : Int} (h1 : -(2 ^ 31) ≤ i) (h2 : i < 2 ^ 31) :
    wordToInt 32 (intToWord 32 i) = i := by
  simp only [wordToInt, intToWord]
  norm_num at h1 h2 ⊢
  split <;> omega

theorem wordToInt64_intToWord {i : Int} (h1 : -(2 ^ 63) ≤ i) (h2 : i < 2 ^ 63) :
    wordToInt 64 (intToWord 64 i) = i := by
  simp only [wordToInt, intToWord]
  norm_num at h1 h2 ⊢
  split <;> omega

theorem digitsVal_padDigitsTo (k n : Nat) : digitsVal (padDigitsTo k n) = n := by
  rw [padDigitsTo, digitsVal_zeros_append, digitsVal_natDigits]

theorem daysInMonth_le (y mo : Nat) : daysInMonth y mo ≤ 31 := by
  rw [daysInMonth]
  split_ifs <;> omega

theorem dateText_parts_length {d : DateValue} (h : d.validB = true) :
    (padDigitsTo 4 d.year).length = 4 ∧ (padDigitsTo 2 d.month).length = 2 ∧
      (padDigitsTo 2 d.day).length = 2 := by
  simp only [DateValue.validB, Bool.and_eq_true, decide_eq_true_eq] at h
  obtain ⟨⟨⟨⟨hy, _⟩, hm⟩, _⟩, hd⟩ := h
  have hdm := daysInMonth_le d.year d.month
  refine ⟨padDigitsTo_length (by omega) (by omega), padDigitsTo_length (by omega) (by omega),
    padDigitsTo_length (by omega) (by omega)⟩

theorem dateText_mem {d : DateValue} {b : Nat} (h : b ∈ dateText d) :
    48 ≤ b ∧ b ≤ 57 := by
  simp only [dateText, List.append_assoc, List.mem_append] at h
  rcases h with h | h | h <;> exact padDigitsTo_mem h

theorem decodeValue_dateText {info : FieldInfo} (hty : info.fieldType = .date)
    {d : DateValue} (h : d.validB = true) (st : MemoState) :
    decodeValue info (dateText d) st = .ok (.date (some d)) := by
  obtain ⟨h4, h2m, h2d⟩ := dateText_parts_length h
  have hmem : ∀ b ∈ dateText d, 48 ≤ b ∧ b ≤ 57 := fun b hb => dateText_mem hb
  have hnospace : ∀ b ∈ dateText d, b ≠ 32 := by
    intro b hb
    have := hmem b hb
    omega
  have hlen : (dateText d).length = 8 := by
    simp [dateText, h4, h2m, h2d]
  have htrim : trimBoth (dateText d) = dateText d := by
    rw [trimBoth, trimLead_eq_self hnospace, trimTrail_eq_self hnospace]
  have hne : dateText d ≠ [] := by
    intro hc
    rw [hc] at hlen
    simp at hlen
  have hassoc : dateText d =
      padDigitsTo 4 d.year ++ (padDigitsTo 2 d.month ++ padDigitsTo 2 d.day) := by
    simp [dateText]
  have htake4 : (dateText d).take 4 = padDigitsTo 4 d.year := by
    rw [hassoc, List.take_left' h4]
  have hdrop4 : (dateText d).drop 4 = padDigitsTo 2 d.month ++ padDigitsTo 2 d.day := by
    rw [hassoc, List.drop_left' h4]
  have htake2 : ((dateText d).drop 4).take 2 = padDigitsTo 2 d.month := by
    rw [hdrop4, List.take_left' h2m]
  have hdrop6 : (dateText d).drop 6 = padDigitsTo 2 d.day := by
    have : (dateText d).drop 6 = ((dateText d).drop 4).drop 2 := by
      rw [List.drop_drop]
    rw [this, hdrop4, List.drop_left' h2m]
  have halldig : (dateText d).all isDigitByte = true := by
    rw [List.all_eq_true]
    intro b hb
    have := hmem b hb
    simp [isDigitByte]
    omega
  simp only [decodeValue, hty, htrim, if_neg hne, hlen, halldig, and_self, if_pos,
    if_true, htake4, htake2, hdrop6, digitsVal_padDigitsTo]
  have hd' : ({ year := d.year, month := d.month, day := d.day } : DateValue) = d := rfl
  rw [if_pos (by rw [hd']; exact h), hd']

theorem trimBoth_pad_no_space {w : Nat} {l : List Nat} (h : ∀ b ∈ l, b ≠ 32) :
    trimBoth (padLeftSpaces w l) = l := by
  rw [trimBoth, trimLead_padLeftSpaces, trimLead_eq_self h, trimTrail_eq_self h]

theorem validB_type_length {f : FieldInfo} (h : f.validB = true) :
    (f.fieldType = .logical → f.length = 1) ∧ (f.fieldType = .date → f.length = 8) ∧
      (f.fieldType = .datetime → f.length = 8) ∧ (f.fieldType = .integer → f.length = 4) ∧
      (f.fieldType = .double → f.length = 8) ∧ (f.fieldType = .currency → f.length = 8) ∧
      (f.fieldType = .memo → f.length = 10) := by
  simp only [FieldInfo.validB, Bool.and_eq_true, decide_eq_true_eq] at h
  obtain ⟨-, hm⟩ := h
  refine ⟨?_, ?_, ?_, ?_, ?_, ?_, ?_⟩ <;>
    · intro ht
      rw [ht] at hm
      simpa using hm

/-- Modelled from the spec: writing one value and decoding the produced
fixed-width slot back through any memo file extending the writer's gives
back the value, for every declared type, provided the value fits the field
and is canonical; the slot has exactly the declared width and the memo file
grows by at most one appended block. -/
theorem writeValue_roundtrip {info : FieldInfo} {v : FieldValue} {m : MemoFile}
    (hval : info.validB = true) (hty : fieldTypeOf v = info.fieldType)
    (hfit : payloadFitsB info v = true) (hcanon : canonValueB v = true)
    (hcap : m.blocks.length + 1 < 10 ^ 10) :
    ∃ slot m', writeValue info v m = .ok (slot, m') ∧
      slot.length = info.length ∧
      (∃ bl, m'.blocks = m.blocks ++ bl ∧ bl.length ≤ 1) ∧
      ∀ mf : MemoFile, (∃ bl, mf.blocks = m'.blocks ++ bl) →
        decodeValue info slot (.opened mf) = .ok v := by
  have hne : ¬(fieldTypeOf v ≠ info.fieldType) := fun h => h hty
  have htl := validB_type_length hval
  cases v with
  | character s =>
    cases s with
    | none =>
      refine ⟨List.replicate info.length 32, m, ?_, by simp, ⟨[], by simp⟩, ?_⟩
      · simp only [writeValue, if_neg hne]
      · intro mf _
        simp [decodeValue, ← hty, fieldTypeOf, trimTrail_replicate_spaces]
    | some s =>
      simp only [canonValueB, Bool.and_eq_true, Bool.not_eq_true'] at hcanon
      have hne2 : s ≠ [] := by
        intro hc
        rw [hc] at hcanon
        simp at hcanon
      have hlast : s.getLast? ≠ some 32 := by
        intro hc
        rw [hc] at hcanon
        simp at hcanon
      simp only [payloadFitsB, Bool.and_eq_true, decide_eq_true_eq] at hfit
      obtain ⟨hle, -⟩ := hfit
      refine ⟨s ++ List.replicate (info.length - s.length) 32, m, ?_, by simp; omega,
        ⟨[], by simp⟩, ?_⟩
      · simp only [writeValue, if_neg hne]
        rw [if_pos hle]
      · intro mf _
        simp only [decodeValue, ← hty, fieldTypeOf]
        rw [trimTrail_append_spaces _ hne2 hlast, if_neg hne2]
  | numeric p =>
    cases p with
    | none =>
      refine ⟨List.replicate info.length 32, m, ?_, by simp, ⟨[], by simp⟩, ?_⟩
      · simp only [writeValue, if_neg hne]
      · intro mf _
        simp [decodeValue, ← hty, fieldTypeOf, trimBoth_replicate_spaces]
    | some p =>
      obtain ⟨neg, mant⟩ := p
      simp only [payloadFitsB, decide_eq_true_eq] at hfit
      have hnospace : ∀ b ∈ numericText neg mant info.decimalCount, b ≠ 32 := by
        intro b hb
        rcases numericText_mem hb with h | h | h <;> omega
      refine ⟨padLeftSpaces info.length (numericText neg mant info.decimalCount), m, ?_,
        padLeftSpaces_length hfit, ⟨[], by simp⟩, ?_⟩
      · simp only [writeValue, if_neg hne]
        rw [if_pos hfit]
      · intro mf _
        simp only [decodeValue, ← hty, fieldTypeOf]
        rw [trimBoth_pad_no_space hnospace, if_neg (numericText_ne_nil neg mant _),
          parseDecimal_numericText]
  | float p =>
    cases p with
    | none =>
      refine ⟨List.replicate info.length 32, m, ?_, by simp, ⟨[], by simp⟩, ?_⟩
      · simp only [writeValue, if_neg hne]
      · intro mf _
        simp [decodeValue, ← hty, fieldTypeOf, trimBoth_replicate_spaces]
    | some p =>
      obtain ⟨neg, mant⟩ := p
      simp only [payloadFitsB, decide_eq_true_eq] at hfit
      have hnospace : ∀ b ∈ numericText neg mant info.decimalCount, b ≠ 32 := by
        intro b hb
        rcases numericText_mem hb with h | h | h <;> omega
      refine ⟨padLeftSpaces info.length (numericText neg mant info.decimalCount), m, ?_,
        padLeftSpaces_length hfit, ⟨[], by simp⟩, ?_⟩
      · simp only [writeValue, if_neg hne]
        rw [if_pos hfit]
      · intro mf _
        simp only [decodeValue, ← hty, fieldTypeOf]
        rw [trimBoth_pad_no_space hnospace, if_neg (numericText_ne_nil neg mant _),
          parseDecimal_numericText]
  | logical b =>
    have hL : info.length = 1 := htl.1 hty.symm
    refine ⟨[logicalByte b], m, ?_, by simp [hL], ⟨[], by simp⟩, ?_⟩
    · simp only [writeValue, if_neg hne]
    · intro mf _
      simp only [decodeValue, ← hty, fieldTypeOf]
      cases b with
      | none => rfl
      | some bv => cases bv <;> rfl
  | date p =>
    cases p with
    | none =>
      refine ⟨List.replicate info.length 32, m, ?_, by simp, ⟨[], by simp⟩, ?_⟩
      · simp only [writeValue, if_neg hne]
      · intro mf _
        simp [decodeValue, ← hty, fieldTypeOf, trimBoth_replicate_spaces]
    | some d =>
      simp only [payloadFitsB] at hfit
      have hL : info.length = 8 := htl.2.1 hty.symm
      obtain ⟨h4, h2m, h2d⟩ := dateText_parts_length hfit
      refine ⟨dateText d, m, ?_, by simp [dateText, h4, h2m, h2d, hL], ⟨[], by simp⟩, ?_⟩
      · simp only [writeValue, if_neg hne]
      · intro mf _
        exact decodeValue_dateText hty.symm hfit _
  | datetime a b =>
    simp only [payloadFitsB, Bool.and_eq_true, decide_eq_true_eq] at hfit
    obtain ⟨ha, hb⟩ := hfit
    have hL : info.length = 8 := htl.2.2.1 hty.symm
    have h256 : (256 : Nat) ^ 4 = 2 ^ 32 := by norm_num
    refine ⟨wordToLE 4 a ++ wordToLE 4 b, m, ?_, by simp [hL], ⟨[], by simp⟩, ?_⟩
    · simp only [writeValue, if_neg hne]
    · intro mf _
      simp only [decodeValue, ← hty, fieldTypeOf]
      rw [if_pos (by simp), List.take_left' (wordToLE_length 4 a),
        List.drop_left' (wordToLE_length 4 a),
        leToWord_wordToLE_of_lt (by rw [h256]; exact ha),
        leToWord_wordToLE_of_lt (by rw [h256]; exact hb)]
  | integer i =>
    simp only [payloadFitsB, Bool.and_eq_true, decide_eq_true_eq] at hfit
    obtain ⟨h1, h2⟩ := hfit
    have hL : info.length = 4 := htl.2.2.2.1 hty.symm
    have h256 : (256 : Nat) ^ 4 = 2 ^ 32 := by norm_num
    refine ⟨wordToLE 4 (intToWord 32 i), m, ?_, by simp [hL], ⟨[], by simp⟩, ?_⟩
    · simp only [writeValue, if_neg hne]
    · intro mf _
      simp only [decodeValue, ← hty, fieldTypeOf]
      rw [if_pos (by simp), leToWord_wordToLE_of_lt (by rw [h256]; exact intToWord32_lt i),
        wordToInt32_intToWord h1 h2]
  | double w =>
    simp only [payloadFitsB, decide_eq_true_eq] at hfit
    have hL : info.length = 8 := htl.2.2.2.2.1 hty.symm
    have h256 : (256 : Nat) ^ 8 = 2 ^ 64 := by norm_num
    refine ⟨wordToLE 8 w, m, ?_, by simp [hL], ⟨[], by simp⟩, ?_⟩
    · simp only [writeValue, if_neg hne]
    · intro mf _
      simp only [decodeValue, ← hty, fieldTypeOf]
      rw [if_pos (by simp), leToWord_wordToLE_of_lt (by rw [h256]; exact hfit)]
  | currency i =>
    simp only [payloadFitsB, Bool.and_eq_true, decide_eq_true_eq] at hfit
    obtain ⟨h1, h2⟩ := hfit
    have hL : info.length = 8 := htl.2.2.2.2.2.1 hty.symm
    have h256 : (256 : Nat) ^ 8 = 2 ^ 64 := by norm_num
    refine ⟨wordToLE 8 (intToWord 64 i), m, ?_, by simp [hL], ⟨[], by simp⟩, ?_⟩
    · simp only [writeValue, if_neg hne]
    · intro mf _
      simp only [decodeValue, ← hty, fieldTypeOf]
      rw [if_pos (by simp), leToWord_wordToLE_of_lt (by rw [h256]; exact intToWord64_lt i),
        wordToInt64_intToWord h1 h2]
  | memo p =>
    cases p with
    | none =>
      refine ⟨List.replicate info.length 32, m, ?_, by simp, ⟨[], by simp⟩, ?_⟩
      · simp only [writeValue, if_neg hne]
      · intro mf _
        simp [decodeValue, ← hty, fieldTypeOf, trimBoth_replicate_spaces]
    | some c =>
      have hL : info.length = 10 := htl.2.2.2.2.2.2 hty.symm
      have hdiglen : (natDigits (m.blocks.length + 1)).length ≤ 10 :=
        natDigits_length_le (by norm_num) hcap
      have hle : (natDigits (m.blocks.length + 1)).length ≤ info.length := by omega
      have hnospace : ∀ b ∈ natDigits (m.blocks.length + 1), b ≠ 32 := by
        intro b hb
        have := natDigits_mem hb
        omega
      refine ⟨padLeftSpaces info.length (natDigits (m.blocks.length + 1)),
        { blocks := m.blocks ++ [c] }, ?_, padLeftSpaces_length hle, ⟨[c], rfl, by simp⟩, ?_⟩
      · simp only [writeValue, if_neg hne]
        rw [if_pos hle]
      · intro mf hext
        obtain ⟨bl, hbl⟩ := hext
        simp only [decodeValue, ← hty, fieldTypeOf]
        rw [trimBoth_pad_no_space hnospace, if_neg (natDigits_ne_nil _),
          parseUnsigned_natDigits]
        have hget : mf.blocks[m.blocks.length]? = some c := by
          rw [hbl, List.append_assoc, List.getElem?_append_right (le_refl m.blocks.length)]
          simp
        simp only [hget]

theorem exceptBind_ok {ε : Type u} {α β : Type v} (a : α) (f : α → Except ε β) :
    (Except.ok a >>= f : Except ε β) = f a := rfl

theorem exceptBind_error {ε : Type u} {α β : Type v} (e : ε) (f : α → Except ε β) :
    (Except.error e >>= f : Except ε β) = .error e := rfl

theorem exceptMap_ok {ε : Type u} {α β : Type v} (a : α) (f : α → β) :
    (Except.ok a : Except ε α).map f = .ok (f a) := rfl

theorem exceptMap_error {ε : Type u} {α β : Type v} (e : ε) (f : α → β) :
    (Except.error e : Except ε α).map f = .error e := rfl

instance {ε : Type u} {α : Type v} [DecidableEq ε] [DecidableEq α] :
    DecidableEq (Except ε α) := fun a b =>
  match a, b with
  | .ok x, .ok y =>
    if h : x = y then isTrue (by rw [h]) else isFalse (by simp [h])
  | .error x, .error y =>
    if h : x = y then isTrue (by rw [h]) else isFalse (by simp [h])
  | .ok _, .error _ => isFalse (by simp)
  | .error _, .ok _ => isFalse (by simp)

/-! ## Record-level writer and reader -/

/-- Total width of all field slots of a schema. -/
def sumLen (fields : List FieldInfo) : Nat := (fields.map FieldInfo.length).sum

/-- Modelled from the spec: the `FieldWriter` protocol: exactly one value
per declared field in declared order; a missing value is `NotEnoughFields`,
an extra value is `EndOfRecord`. -/
def writeFields : List FieldInfo → List FieldValue → MemoFile →
    Except Error (List Nat × MemoFile)
  | [], [], m => .ok ([], m)
  | [], _ :: _, _ => .error .endOfRecord
  | _ :: _, [], _ => .error .notEnoughFields
  | info :: fs, v :: vs, m => do
    let (slot, m') ← writeValue info v m
    let (rest, m'') ← writeFields fs vs m'
    .ok (slot ++ rest, m'')

/-- Modelled from the spec: one encoded record: the deletion-flag byte
(space, active) followed by the concatenated fixed-width slots. -/
def writeRecord (fields : List FieldInfo) (vals : List FieldValue) (m : MemoFile) :
    Except Error (List Nat × MemoFile) :=
  (writeFields fields vals m).map (fun p => (32 :: p.1, p.2))

/-- Modelled from the spec: encoding a sequence of records in order,
threading the memo file. -/
def writeRecords (fields : List FieldInfo) :
    List (List FieldValue) → MemoFile → Except Error (List Nat × MemoFile)
  | [], m => .ok ([], m)
  | r :: rs, m => do
    let (b, m') ← writeRecord fields r m
    let (bs, m'') ← writeRecords fields rs m'
    .ok (b ++ bs, m'')

/-- Modelled from the spec: decoding the field slots of one record in
schema order, splitting the byte area by the declared widths. -/
def decodeFields : List FieldInfo → List Nat → MemoState → Except Error (List FieldValue)
  | [], _, _ => .ok []
  | info :: fs, bytes, st => do
    let v ← decodeValue info (bytes.take info.length) st
    let vs ← decodeFields fs (bytes.drop info.length) st
    .ok (v :: vs)

/-- Modelled from the spec: decoding one record chunk: the first byte is
the deletion flag (exposed records are not filtered), the rest is split
into the declared slots. -/
def readRecord (fields : List FieldInfo) (chunk : List Nat) (st : MemoState) :
    Except Error (List FieldValue) :=
  match chunk with
  | [] => .error (.ioError "unexpected end of record area")
  | _flag :: rest => decodeFields fields rest st

/-- Modelled from the spec: claim-style well-formedness of one record
against a schema: one value per field whose variant matches the declared
type and whose payload fits the declared width. -/
def recordFitsB : List FieldInfo → List FieldValue → Bool
  | [], [] => true
  | f :: fs, v :: vs =>
    (fieldTypeOf v == f.fieldType) && payloadFitsB f v && recordFitsB fs vs
  | _, _ => false

theorem recordFitsB_length : ∀ {fields : List FieldInfo} {vals : List FieldValue},
    recordFitsB fields vals = true → vals.length = fields.length := by
  intro fields
  induction fields with
  | nil =>
    intro vals h
    cases vals with
    | nil => rfl
    | cons v vs => simp [recordFitsB] at h
  | cons f fs ih =>
    intro vals h
    cases vals with
    | nil => simp [recordFitsB] at h
    | cons v vs =>
      simp only [recordFitsB, Bool.and_eq_true] at h
      simp [ih h.2]

theorem writeFields_roundtrip :
    ∀ (fields : List FieldInfo) (vals : List FieldValue) (m : MemoFile),
      fields.all FieldInfo.validB = true → recordFitsB fields vals = true →
      vals.all canonValueB = true → m.blocks.length + vals.length < 10 ^ 10 →
      ∃ bytes m', writeFields fields vals m = .ok (bytes, m') ∧
        bytes.length = sumLen fields ∧
        (∃ bl, m'.blocks = m.blocks ++ bl ∧ bl.length ≤ vals.length) ∧
        ∀ mf : MemoFile, (∃ bl, mf.blocks = m'.blocks ++ bl) →
          decodeFields fields bytes (.opened mf) = .ok vals := by
  intro fields
  induction fields with
  | nil =>
    intro vals m _ hfit _ _
    cases vals with
    | nil =>
      exact ⟨[], m, rfl, rfl, ⟨[], by simp⟩, fun mf _ => rfl⟩
    | cons v vs => simp [recordFitsB] at hfit
  | cons f fs ih =>
    intro vals m hvalid hfit hcanon hcap
    cases vals with
    | nil => simp [recordFitsB] at hfit
    | cons v vs =>
      simp only [recordFitsB, Bool.and_eq_true, beq_iff_eq] at hfit
      obtain ⟨⟨hty, hpfit⟩, hrest⟩ := hfit
      simp only [List.all_cons, Bool.and_eq_true] at hvalid hcanon
      obtain ⟨hfv, hfsv⟩ := hvalid
      obtain ⟨hcv, hcvs⟩ := hcanon
      obtain ⟨slot, m1, hw, hslotlen, ⟨bl1, hbl1, hbl1len⟩, hdec⟩ :=
        @writeValue_roundtrip f v m hfv hty hpfit hcv
          (by simp only [List.length_cons] at hcap; omega)
      obtain ⟨rest, m2, hwr, hrestlen, ⟨bl2, hbl2, hbl2len⟩, hdecr⟩ :=
        ih vs m1 hfsv hrest hcvs
          (by
            simp only [List.length_cons] at hcap
            rw [hbl1]
            simp only [List.length_append]
            omega)
      refine ⟨slot ++ rest, m2, ?_, ?_, ?_, ?_⟩
      · simp [writeFields, hw, hwr, exceptBind_ok]
      · simp [hslotlen, hrestlen, sumLen]
      · refine ⟨bl1 ++ bl2, ?_, ?_⟩
        · rw [hbl2, hbl1, List.append_assoc]
        · simp only [List.length_append, List.length_cons]
          omega
      · intro mf hext
        obtain ⟨bl3, hbl3⟩ := hext
        have hext1 : ∃ bl, mf.blocks = m1.blocks ++ bl :=
          ⟨bl2 ++ bl3, by rw [hbl3, hbl2, List.append_assoc]⟩
        simp only [decodeFields]
        rw [List.take_left' hslotlen, List.drop_left' hslotlen, hdec mf hext1,
          hdecr mf ⟨bl3, hbl3⟩]
        rfl

theorem writeRecord_roundtrip {fields : List FieldInfo} {vals : List FieldValue}
    {m : MemoFile} (hvalid : fields.all FieldInfo.validB = true)
    (hfit : recordFitsB fields vals = true) (hcanon : vals.all canonValueB = true)
    (hcap : m.blocks.length + vals.length < 10 ^ 10) :
    ∃ bytes m', writeRecord fields vals m = .ok (bytes, m') ∧
      bytes.length = 1 + sumLen fields ∧
      (∃ bl, m'.blocks = m.blocks ++ bl ∧ bl.length ≤ vals.length) ∧
      ∀ mf : MemoFile, (∃ bl, mf.blocks = m'.blocks ++ bl) →
        readRecord fields bytes (.opened mf) = .ok vals := by
  obtain ⟨bytes, m', hw, hlen, hext, hdec⟩ :=
    writeFields_roundtrip fields vals m hvalid hfit hcanon hcap
  refine ⟨32 :: bytes, m', ?_, by simp [hlen]; omega, hext, ?_⟩
  · simp only [writeRecord, hw, exceptMap_ok]
  · intro mf hmf
    simp only [readRecord]
    exact hdec mf hmf

/-- Modelled from the spec: the lazy record sequence of the read path:
`count` records are produced, each decoded on demand from its
`recordLength`-byte chunk of the record area. -/
def readRecordsFuel : Nat → List FieldInfo → Nat → MemoState → List Nat →
    List (Except Error (List FieldValue))
  | 0, _, _, _, _ => []
  | n + 1, fields, recLen, st, area =>
    readRecord fields (area.take recLen) st ::
      readRecordsFuel n fields recLen st (area.drop recLen)

/-- Collect a list of per-record results into one result, stopping at the
first error, as the eager `read()` does. -/
def collectResults : List (Except Error α) → Except Error (List α)
  | [] => .ok []
  | .ok a :: rest => (collectResults rest).map (a :: ·)
  | .error e :: _ => .error e

theorem collectResults_map_ok (l : List α) :
    collectResults (l.map Except.ok) = .ok l := by
  induction l with
  | nil => rfl
  | cons a t ih => simp [collectResults, ih, exceptMap_ok]

theorem writeRecords_roundtrip {fields : List FieldInfo}
    (hvalid : fields.all FieldInfo.validB = true) :
    ∀ (records : List (List FieldValue)) (m : MemoFile),
      records.all (fun r => recordFitsB fields r && r.all canonValueB) = true →
      m.blocks.length + records.length * fields.length < 10 ^ 10 →
      ∃ body m', writeRecords fields records m = .ok (body, m') ∧
        body.length = records.length * (1 + sumLen fields) ∧
        (∃ bl, m'.blocks = m.blocks ++ bl ∧ bl.length ≤ records.length * fields.length) ∧
        ∀ mf : MemoFile, (∃ bl, mf.blocks = m'.blocks ++ bl) → ∀ junk,
          readRecordsFuel records.length fields (1 + sumLen fields) (.opened mf)
            (body ++ junk) = records.map Except.ok := by
  intro records
  induction records with
  | nil =>
    intro m _ _
    exact ⟨[], m, rfl, by simp, ⟨[], by simp⟩, fun mf _ junk => by simp [readRecordsFuel]⟩
  | cons r rs ih =>
    intro m hall hcap
    simp only [List.all_cons, Bool.and_eq_true] at hall
    obtain ⟨⟨hfit, hcanon⟩, hrs⟩ := hall
    have hrlen : r.length = fields.length := recordFitsB_length hfit
    have hexp : (rs.length + 1) * fields.length
        = rs.length * fields.length + fields.length := by ring
    simp only [List.length_cons] at hcap
    obtain ⟨b, m1, hw, hblen, ⟨bl1, hbl1, hbl1len⟩, hread⟩ :=
      @writeRecord_roundtrip fields r m hvalid hfit hcanon
        (by rw [hrlen]; omega)
    obtain ⟨bs, m2, hws, hbslen, ⟨bl2, hbl2, hbl2len⟩, hreads⟩ :=
      ih m1
        hrs
        (by
          rw [hbl1]
          simp only [List.length_append]
          rw [hrlen] at hbl1len
          omega)
    refine ⟨b ++ bs, m2, ?_, ?_, ?_, ?_⟩
    · simp [writeRecords, hw, hws, exceptBind_ok]
    · simp only [List.length_append, hblen, hbslen, List.length_cons]
      ring
    · refine ⟨bl1 ++ bl2, ?_, ?_⟩
      · rw [hbl2, hbl1, List.append_assoc]
      · simp only [List.length_append, List.length_cons, hexp]
        rw [hrlen] at hbl1len
        omega
    · intro mf hext junk
      obtain ⟨bl3, hbl3⟩ := hext
      have hext1 : ∃ bl, mf.blocks = m1.blocks ++ bl :=
        ⟨bl2 ++ bl3, by rw [hbl3, hbl2, List.append_assoc]⟩
      simp only [List.length_cons, readRecordsFuel, List.append_assoc, List.map_cons]
      rw [List.take_left' hblen, List.drop_left' hblen, hread mf hext1,
        hreads mf ⟨bl3, hbl3⟩ junk]

/-! ## Header codec -/

/-- Modelled from the spec: table-level metadata: version/signature byte,
3-byte last-update date, record count, header length, record length and
the ordered field descriptors. -/
structure Header where
  version : Nat
  updYear : Nat
  updMonth : Nat
  updDay : Nat
  recordCount : Nat
  headerLength : Nat
  recordLength : Nat
  fields : List FieldInfo
deriving DecidableEq

/-- Modelled from the spec: one 32-byte field descriptor: 11-byte
null-padded name, type code, 4 reserved bytes, length, decimal count,
flags, 13 reserved bytes. -/
def encodeDesc (f : FieldInfo) : List Nat :=
  (f.name ++ List.replicate (11 - f.name.length) 0) ++
    typeCode f.fieldType :: 0 :: 0 :: 0 :: 0 ::
      f.length :: f.decimalCount :: f.flags :: List.replicate 13 0

/-- Modelled from the spec: the concatenated field-descriptor array. -/
def encodeDescs : List FieldInfo → List Nat
  | [] => []
  | f :: fs => encodeDesc f ++ encodeDescs fs

/-- Modelled from the spec: the encoded header: 32-byte fixed part
(version, update date, little-endian record count, header length, record
length, reserved zeros), the descriptor array and the 0x0D terminator. -/
def encodeHeader (h : Header) : List Nat :=
  h.version :: h.updYear :: h.updMonth :: h.updDay ::
    (wordToLE 4 h.recordCount ++ (wordToLE 2 h.headerLength ++ (wordToLE 2 h.recordLength ++
      (List.replicate 20 0 ++ (encodeDescs h.fields ++ [13])))))

/-- Modelled from the spec: scanning 32-byte field descriptors from offset
32 until the 0x0D terminator, with fuel making the recursion structural. -/
def parseDescs : Nat → List Nat → Except Error (List FieldInfo)
  | 0, _ => .error (.ioError "unterminated field descriptor area")
  | fuel + 1, bytes =>
    if bytes.headD 0 = 13 then .ok []
    else if bytes.length < 32 then .error (.ioError "truncated field descriptor")
    else do
      let ft ← typeFromCode ((bytes.drop 11).headD 0)
      let rest ← parseDescs fuel (bytes.drop 32)
      .ok ({ name := (bytes.take 11).takeWhile (fun b => b != 0)
             fieldType := ft
             length := (bytes.drop 16).headD 0
             decimalCount := (bytes.drop 17).headD 0
             flags := (bytes.drop 18).headD 0 } :: rest)

/-- Modelled from the spec: parsing the 32-byte fixed header and then the
descriptor array. -/
def parseHeader (bytes : List Nat) : Except Error Header :=
  if bytes.length < 33 then .error (.ioError "truncated header")
  else do
    let fields ← parseDescs bytes.length (bytes.drop 32)
    .ok { version := bytes.headD 0
          updYear := (bytes.drop 1).headD 0
          updMonth := (bytes.drop 2).headD 0
          updDay := (bytes.drop 3).headD 0
          recordCount := leToWord ((bytes.drop 4).take 4)
          headerLength := leToWord ((bytes.drop 8).take 2)
          recordLength := leToWord ((bytes.drop 10).take 2)
          fields := fields }

theorem validB_name {f : FieldInfo} (h : f.validB = true) :
    1 ≤ f.name.length ∧ f.name.length ≤ 10 ∧ ∀ b ∈ f.name, 32 < b ∧ b < 127 := by
  simp only [FieldInfo.validB, Bool.and_eq_true, decide_eq_true_eq, List.all_eq_true] at h
  obtain ⟨⟨⟨⟨⟨⟨⟨h1, h2⟩, h3⟩, -⟩, -⟩, -⟩, -⟩, -⟩ := h
  refine ⟨h1, h2, ?_⟩
  intro b hb
  have := h3 b hb
  simp at this
  exact this

theorem encodeDesc_length {f : FieldInfo} (h : f.validB = true) :
    (encodeDesc f).length = 32 := by
  obtain ⟨h1, h2, -⟩ := validB_name h
  simp [encodeDesc]
  omega

theorem encodeDescs_length {fields : List FieldInfo}
    (h : fields.all FieldInfo.validB = true) :
    (encodeDescs fields).length = 32 * fields.length := by
  induction fields with
  | nil => simp [encodeDescs]
  | cons f fs ih =>
    simp only [List.all_cons, Bool.and_eq_true] at h
    simp only [encodeDescs, List.length_append, encodeDesc_length h.1, ih h.2,
      List.length_cons]
    ring

theorem parseDescs_encodeDescs :
    ∀ (fields : List FieldInfo) (fuel : Nat) (junk : List Nat),
      fields.all FieldInfo.validB = true → fields.length < fuel →
      parseDescs fuel (encodeDescs fields ++ 13 :: junk) = .ok fields := by
  intro fields
  induction fields with
  | nil =>
    intro fuel junk _ hfuel
    obtain ⟨fuel', rfl⟩ : ∃ k, fuel = k + 1 := ⟨fuel - 1, by omega⟩
    simp [encodeDescs, parseDescs]
  | cons f fs ih =>
    intro fuel junk hvalid hfuel
    simp only [List.all_cons, Bool.and_eq_true] at hvalid
    obtain ⟨hfv, hfsv⟩ := hvalid
    obtain ⟨fuel', rfl⟩ : ∃ k, fuel = k + 1 := ⟨fuel - 1, by omega⟩
    obtain ⟨hn1, hn10, hnb⟩ := validB_name hfv
    obtain ⟨a, t, hat⟩ : ∃ a t, f.name = a :: t := by
      rcases hname : f.name with _ | ⟨a, t⟩
      · rw [hname] at hn1
        simp at hn1
      · exact ⟨a, t, rfl⟩
    have hnslen : (f.name ++ List.replicate (11 - f.name.length) 0).length = 11 := by
      simp
      omega
    have hbytes : encodeDescs (f :: fs) ++ 13 :: junk
        = (f.name ++ List.replicate (11 - f.name.length) 0) ++
          (typeCode f.fieldType :: 0 :: 0 :: 0 :: 0 ::
            f.length :: f.decimalCount :: f.flags ::
              (List.replicate 13 0 ++ (encodeDescs fs ++ 13 :: junk))) := by
      simp [encodeDescs, encodeDesc]
    have hlen32 : (encodeDesc f).length = 32 := encodeDesc_length hfv
    have hhead : (encodeDescs (f :: fs) ++ 13 :: junk).headD 0 = a := by
      rw [hbytes, hat]
      rfl
    have hane : a ≠ 13 := by
      have := hnb a (by rw [hat]; exact List.mem_cons_self a t)
      omega
    have htotlen : 32 ≤ (encodeDescs (f :: fs) ++ 13 :: junk).length := by
      simp only [encodeDescs, List.append_assoc, List.length_append, hlen32]
      omega
    rw [parseDescs, if_neg (by rw [hhead]; exact hane), if_neg (by omega)]
    have hdrop11 : (encodeDescs (f :: fs) ++ 13 :: junk).drop 11
        = typeCode f.fieldType :: 0 :: 0 :: 0 :: 0 ::
            f.length :: f.decimalCount :: f.flags ::
              (List.replicate 13 0 ++ (encodeDescs fs ++ 13 :: junk)) := by
      rw [hbytes, List.drop_left' hnslen]
    have htake11 : (encodeDescs (f :: fs) ++ 13 :: junk).take 11
        = f.name ++ List.replicate (11 - f.name.length) 0 := by
      rw [hbytes, List.take_left' hnslen]
    have hname' : ((encodeDescs (f :: fs) ++ 13 :: junk).take 11).takeWhile
        (fun b => b != 0) = f.name := by
      rw [htake11, takeWhile_all_append (by
        intro x hx
        have := hnb x hx
        simp
        omega)]
      obtain ⟨j, hj⟩ : ∃ j, 11 - f.name.length = j + 1 := ⟨10 - f.name.length, by omega⟩
      rw [hj, List.replicate_succ, takeWhile_cons_neg (by simp), List.append_nil]
    have hdrop16 : (encodeDescs (f :: fs) ++ 13 :: junk).drop 16
        = f.length :: f.decimalCount :: f.flags ::
            (List.replicate 13 0 ++ (encodeDescs fs ++ 13 :: junk)) := by
      rw [show (16 : Nat) = 11 + 5 by rfl, ← List.drop_drop, hdrop11]
      rfl
    have hdrop17 : (encodeDescs (f :: fs) ++ 13 :: junk).drop 17
        = f.decimalCount :: f.flags ::
            (List.replicate 13 0 ++ (encodeDescs fs ++ 13 :: junk)) := by
      rw [show (17 : Nat) = 11 + 6 by rfl, ← List.drop_drop, hdrop11]
      rfl
    have hdrop18 : (encodeDescs (f :: fs) ++ 13 :: junk).drop 18
        = f.flags :: (List.replicate 13 0 ++ (encodeDescs fs ++ 13 :: junk)) := by
      rw [show (18 : Nat) = 11 + 7 by rfl, ← List.drop_drop, hdrop11]
      rfl
    have hdrop32 : (encodeDescs (f :: fs) ++ 13 :: junk).drop 32
        = encodeDescs fs ++ 13 :: junk := by
      have : encodeDescs (f :: fs) ++ 13 :: junk
          = encodeDesc f ++ (encodeDescs fs ++ 13 :: junk) := by
        simp [encodeDescs]
      rw [this, List.drop_left' hlen32]
    rw [hdrop11, hdrop16, hdrop17, hdrop18, hdrop32, hname']
    simp only [List.headD_cons, typeFromCode_typeCode, exceptBind_ok,
      ih fuel' junk hfsv (by simpa using hfuel)]

theorem encodeHeader_length {h : Header} (hv : h.fields.all FieldInfo.validB = true) :
    (encodeHeader h).length = 32 + 32 * h.fields.length + 1 := by
  simp [encodeHeader, encodeDescs_length hv]
  omega

theorem parseHeader_encodeHeader {h : Header} (junk : List Nat)
    (hv : h.fields.all FieldInfo.validB = true)
    (hrc : h.recordCount < 2 ^ 32) (hhl : h.headerLength < 2 ^ 16)
    (hrl : h.recordLength < 2 ^ 16) :
    parseHeader (encodeHeader h ++ junk) = .ok h := by
  have h2564 : (256 : Nat) ^ 4 = 2 ^ 32 := by norm_num
  have h2562 : (256 : Nat) ^ 2 = 2 ^ 16 := by norm_num
  have hdlen := encodeDescs_length hv
  have hblen : (encodeHeader h ++ junk).length
      = 33 + 32 * h.fields.length + junk.length := by
    simp [encodeHeader, hdlen]
    omega
  have hbytes : encodeHeader h ++ junk
      = h.version :: h.updYear :: h.updMonth :: h.updDay ::
          (wordToLE 4 h.recordCount ++ (wordToLE 2 h.headerLength ++
            (wordToLE 2 h.recordLength ++ (List.replicate 20 0 ++
              (encodeDescs h.fields ++ 13 :: junk))))) := by
    simp [encodeHeader]
  have hdrop4 : (encodeHeader h ++ junk).drop 4
      = wordToLE 4 h.recordCount ++ (wordToLE 2 h.headerLength ++
          (wordToLE 2 h.recordLength ++ (List.replicate 20 0 ++
            (encodeDescs h.fields ++ 13 :: junk)))) := by
    rw [hbytes]
    rfl
  have hdrop8 : (encodeHeader h ++ junk).drop 8
      = wordToLE 2 h.headerLength ++ (wordToLE 2 h.recordLength ++
          (List.replicate 20 0 ++ (encodeDescs h.fields ++ 13 :: junk))) := by
    rw [show (8 : Nat) = 4 + 4 by rfl, ← List.drop_drop, hdrop4,
      List.drop_left' (wordToLE_length 4 _)]
  have hdrop10 : (encodeHeader h ++ junk).drop 10
      = wordToLE 2 h.recordLength ++
          (List.replicate 20 0 ++ (encodeDescs h.fields ++ 13 :: junk)) := by
    rw [show (10 : Nat) = 8 + 2 by rfl, ← List.drop_drop, hdrop8,
      List.drop_left' (wordToLE_length 2 _)]
  have hdrop12 : (encodeHeader h ++ junk).drop 12
      = List.replicate 20 0 ++ (encodeDescs h.fields ++ 13 :: junk) := by
    rw [show (12 : Nat) = 10 + 2 by rfl, ← List.drop_drop, hdrop10,
      List.drop_left' (wordToLE_length 2 _)]
  have hdrop32 : (encodeHeader h ++ junk).drop 32
      = encodeDescs h.fields ++ 13 :: junk := by
    rw [show (32 : Nat) = 12 + 20 by rfl, ← List.drop_drop, hdrop12,
      List.drop_left' (List.length_replicate 20 0)]
  have hv0 : (encodeHeader h ++ junk).headD 0 = h.version := by rw [hbytes]; rfl
  have hv1 : ((encodeHeader h ++ junk).drop 1).headD 0 = h.updYear := by rw [hbytes]; rfl
  have hv2 : ((encodeHeader h ++ junk).drop 2).headD 0 = h.updMonth := by rw [hbytes]; rfl
  have hv3 : ((encodeHeader h ++ junk).drop 3).headD 0 = h.updDay := by rw [hbytes]; rfl
  have hrc' : leToWord (((encodeHeader h ++ junk).drop 4).take 4) = h.recordCount := by
    rw [hdrop4, List.take_left' (wordToLE_length 4 _),
      leToWord_wordToLE_of_lt (by rw [h2564]; exact hrc)]
  have hhl' : leToWord (((encodeHeader h ++ junk).drop 8).take 2) = h.headerLength := by
    rw [hdrop8, List.take_left' (wordToLE_length 2 _),
      leToWord_wordToLE_of_lt (by rw [h2562]; exact hhl)]
  have hrl' : leToWord (((encodeHeader h ++ junk).drop 10).take 2) = h.recordLength := by
    rw [hdrop10, List.take_left' (wordToLE_length 2 _),
      leToWord_wordToLE_of_lt (by rw [h2562]; exact hrl)]
  rw [parseHeader, if_neg (by rw [hblen]; omega), hdrop32,
    parseDescs_encodeDescs h.fields _ junk hv (by rw [hblen]; omega), exceptBind_ok,
    hv0, hv1, hv2, hv3, hrc', hhl', hrl']

/-! ## Table-level writer and reader -/

/-- Whether a schema declares any Memo-typed field. -/
def hasMemoField (fields : List FieldInfo) : Bool :=
  fields.any (fun f => f.fieldType == .memo)

/-- Modelled from the spec: the header the builder computes when the
schema is frozen: `header_length = 32 + 32*len(fields) + 1`,
`record_length = 1 + sum(field.length)`, the signature byte encoding memo
presence, and the given record count. -/
def mkHeader (fields : List FieldInfo) (count : Nat) : Header :=
  { version := if hasMemoField fields then 131 else 3
    updYear := 100
    updMonth := 1
    updDay := 1
    recordCount := count
    headerLength := 32 + 32 * fields.length + 1
    recordLength := 1 + sumLen fields
    fields := fields }

/-- Modelled from the spec: the writer's finalize step patches only the
record count of the header written up front. -/
def finalizeHeader (h : Header) (count : Nat) : Header :=
  { h with recordCount := count }

/-- Modelled from the spec: `TableWriter::write`: the header (with its
record count patched to the final count by the finalize step), the encoded
records, and the 0x1A end-of-file marker, together with the memo file
grown from empty. -/
def writeTable (fields : List FieldInfo) (records : List (List FieldValue)) :
    Except Error (List Nat × MemoFile) := do
  let (body, m) ← writeRecords fields records { blocks := [] }
  .ok (encodeHeader (finalizeHeader (mkHeader fields 0) records.length) ++ body ++ [26], m)

/-- Modelled from the spec: `read()`: parse the header, seek to
`header_length`, and decode `record_count` records of `record_length`
bytes each, eagerly collecting them. -/
def readTable (bytes : List Nat) (st : MemoState) :
    Except Error (List (List FieldValue)) := do
  let h ← parseHeader bytes
  collectResults
    (readRecordsFuel h.recordCount h.fields h.recordLength st (bytes.drop h.headerLength))

theorem writeTable_spec {fields : List FieldInfo} {records : List (List FieldValue)}
    (hvalid : fields.all FieldInfo.validB = true)
    (hall : records.all (fun r => recordFitsB fields r && r.all canonValueB) = true)
    (hhl : 32 + 32 * fields.length + 1 < 2 ^ 16)
    (hrl : 1 + sumLen fields < 2 ^ 16)
    (hrc : records.length < 2 ^ 32)
    (hcap : records.length * fields.length < 10 ^ 10) :
    ∃ bytes m, writeTable fields records = .ok (bytes, m) ∧
      parseHeader bytes = .ok (mkHeader fields records.length) ∧
      readTable bytes (.opened m) = .ok records := by
  obtain ⟨body, m, hw, hblen, ⟨bl, hbl, hbllen⟩, hread⟩ :=
    writeRecords_roundtrip hvalid records { blocks := [] } hall (by simpa using hcap)
  have hfin : finalizeHeader (mkHeader fields 0) records.length
      = mkHeader fields records.length := rfl
  set H := mkHeader fields records.length with hH
  have hHfields : H.fields = fields := rfl
  have hHrc : H.recordCount = records.length := rfl
  have hHhl : H.headerLength = 32 + 32 * fields.length + 1 := rfl
  have hHrl : H.recordLength = 1 + sumLen fields := rfl
  have hbytes' : encodeHeader H ++ body ++ [26] = encodeHeader H ++ (body ++ [26]) := by
    rw [List.append_assoc]
  have hparse : parseHeader (encodeHeader H ++ body ++ [26]) = .ok H := by
    rw [hbytes']
    exact parseHeader_encodeHeader (body ++ [26]) (by rw [hHfields]; exact hvalid)
      (by rw [hHrc]; exact hrc) (by rw [hHhl]; exact hhl) (by rw [hHrl]; exact hrl)
  have henclen : (encodeHeader H).length = H.headerLength := by
    rw [encodeHeader_length (by rw [hHfields]; exact hvalid), hHfields, hHhl]
  refine ⟨encodeHeader H ++ body ++ [26], m, ?_, hparse, ?_⟩
  · simp only [writeTable, hw, exceptBind_ok, hfin, ← hH]
  · rw [readTable, hparse, exceptBind_ok, hbytes', List.drop_left' henclen, hHrc,
      hHfields, hHrl, hread m ⟨[], by simp⟩ [26], collectResults_map_ok]

/-! ## FieldIterator: cursor-based per-record typed extraction -/

/-- Modelled from the spec: the sequential field cursor over one record:
the schema, the record's slot bytes (after the deletion flag), the memo
state, and the index of the next field to decode. -/
structure FieldIterator where
  fields : List FieldInfo
  recordBytes : List Nat
  memoState : MemoState
  cursor : Nat
deriving DecidableEq

/-- Byte offset of the `k`-th field slot inside a record's slot area. -/
def slotOffset (fields : List FieldInfo) (k : Nat) : Nat :=
  sumLen (fields.take k)

/-- Modelled from the spec: `read_next_field_as`: decode the field under
the cursor and advance the cursor by one; past the last declared field the
call fails with `EndOfRecord`. -/
def readNextFieldAs (it : FieldIterator) : Except Error (FieldValue × FieldIterator) :=
  match it.fields[it.cursor]? with
  | none => .error .endOfRecord
  | some info => do
    let v ← decodeValue info
      ((it.recordBytes.drop (slotOffset it.fields it.cursor)).take info.length)
      it.memoState
    .ok (v, { it with cursor := it.cursor + 1 })

/-- Sequentially read `k` fields through the cursor. -/
def readManyFields : Nat → FieldIterator → Except Error (List FieldValue × FieldIterator)
  | 0, it => .ok ([], it)
  | k + 1, it => do
    let (v, it') ← readNextFieldAs it
    let (vs, it'') ← readManyFields k it'
    .ok (v :: vs, it'')

/-- Modelled from the spec: `read_as` for a target type needing `arity`
fields: when the schema mapped fewer fields than the target requires the
call fails with `NotEnoughFields`; otherwise the fields are extracted
sequentially. -/
def readRecordAs (arity : Nat) (it : FieldIterator) : Except Error (List FieldValue) :=
  if it.fields.length < arity then .error .notEnoughFields
  else (readManyFields arity it).map Prod.fst

/-! ## Reader state machine -/

/-- Modelled from the spec: a `Reader` owning its byte source, resolved
memo state and current position. -/
structure Reader where
  bytes : List Nat
  memoState : MemoState
  pos : Nat
deriving DecidableEq

/-- Modelled from the spec: `iter_records()`: parse the header, re-seek to
`header_length` (which is what makes the sequence restartable), and
produce the per-record results of the `record_count` records. -/
def Reader.iterRecords (r : Reader) : Except Error (List (Except Error (List FieldValue))) := do
  let h ← parseHeader r.bytes
  let r' : Reader := { r with pos := h.headerLength }
  .ok (readRecordsFuel h.recordCount h.fields h.recordLength r'.memoState
    (r'.bytes.drop r'.pos))

/-! ## Error formatting (from src/src/lib.rs) -/

/-- Bytes rendered as a string, for formatting field names in errors. -/
def bytesToString (l : List Nat) : String :=
  String.mk (l.map (fun b => Char.ofNat b))

/-- Derived Debug representation of a field type tag: its variant name. -/
def FieldType.debugString : FieldType → String
  | .character => "Character"
  | .numeric => "Numeric"
  | .float => "Float"
  | .logical => "Logical"
  | .date => "Date"
  | .datetime => "DateTime"
  | .integer => "Integer"
  | .double => "Double"
  | .currency => "Currency"
  | .memo => "Memo"

/-- From src/src/lib.rs: the derived Debug representation of `Error`
(variant name with its payload), with wrapped foreign errors shown through
their modelled message strings. -/
def Error.debugString : Error → String
  | .ioError msg => "IoError(" ++ msg ++ ")"
  | .parseFloatError msg => "ParseFloatError(" ++ msg ++ ")"
  | .parseIntError msg => "ParseIntError(" ++ msg ++ ")"
  | .invalidFieldType c => "InvalidFieldType(" ++ bytesToString [c] ++ ")"
  | .invalidDate => "InvalidDate"
  | .fieldNameTooLong => "FieldNameTooLong"
  | .missingMemoFile => "MissingMemoFile"
  | .errorOpeningMemoFile msg => "ErrorOpeningMemoFile(" ++ msg ++ ")"
  | .badConversion msg => "BadConversion(" ++ msg ++ ")"
  | .endOfRecord => "EndOfRecord"
  | .notEnoughFields => "NotEnoughFields"
  | .badFieldType e g n =>
    "BadFieldType \x7b expected: " ++ e.debugString ++ ", got: " ++ g.debugString ++
      ", field_name: \"" ++ bytesToString n ++ "\" \x7d"
  | .message msg => "Message(" ++ msg ++ ")"

/-- From src/src/lib.rs lines 279-283: `impl Display for Error` formats the
value with `write!(f, "{:?}", self)`, i.e. it emits exactly the Debug
representation. -/
def Error.displayString (e : Error) : String := e.debugString

/-! ## Claim theorems -/

/-- The first four header bytes (version and last-update date), which the
finalize step never touches. -/
def headLead (h : Header) : List Nat := [h.version, h.updYear, h.updMonth, h.updDay]

/-- Every encoded header byte after the record count (header length,
record length, reserved bytes, descriptors, terminator), which the
finalize step never touches. -/
def headTail (h : Header) : List Nat :=
  wordToLE 2 h.headerLength ++ (wordToLE 2 h.recordLength ++
    (List.replicate 20 0 ++ (encodeDescs h.fields ++ [13])))

/-- C3: for every declared field and every value passed to the field
writer, a variant that does not match the declared field type fails with
exactly a `BadFieldType` error carrying the expected type, the actual type
and the field name, and with no other error kind. -/
theorem claim_C3 (info : FieldInfo) (v : FieldValue) (m : MemoFile)
    (h : fieldTypeOf v ≠ info.fieldType) :
    writeValue info v m = .error (.badFieldType info.fieldType (fieldTypeOf v) info.name) := by
  simp only [writeValue, if_pos h]

/-- A concrete two-byte Character field named "A". -/
def c3Info : FieldInfo :=
  { name := [65], fieldType := .character, length := 2, decimalCount := 0, flags := 0 }

theorem claim_C3_witness :
    (fieldTypeOf (.logical none) ≠ c3Info.fieldType) ∧
    writeValue c3Info (.logical none) { blocks := [] }
      = .error (.badFieldType .character .logical [65]) :=
  ⟨by decide, claim_C3 _ _ _ (by decide)⟩

/-- C8: the finalize step changes only the record count: every other
header field is preserved, and the encoded header differs from the
initially written one only in the four record-count bytes at offset 4
(the bytes before and after them are the same `headLead`/`headTail`). -/
theorem claim_C8 (h : Header) (n : Nat) :
    ((finalizeHeader h n).version = h.version ∧ (finalizeHeader h n).updYear = h.updYear ∧
      (finalizeHeader h n).updMonth = h.updMonth ∧ (finalizeHeader h n).updDay = h.updDay ∧
      (finalizeHeader h n).headerLength = h.headerLength ∧
      (finalizeHeader h n).recordLength = h.recordLength ∧
      (finalizeHeader h n).fields = h.fields ∧ (finalizeHeader h n).recordCount = n) ∧
    encodeHeader h = headLead h ++ (wordToLE 4 h.recordCount ++ headTail h) ∧
    encodeHeader (finalizeHeader h n) = headLead h ++ (wordToLE 4 n ++ headTail h) ∧
    (headLead h).length = 4 ∧ (wordToLE 4 n).length = 4 := by
  exact ⟨⟨rfl, rfl, rfl, rfl, rfl, rfl, rfl, rfl⟩, rfl, rfl, rfl, by simp⟩

/-- C9: reading the same bytes with the same memo state twice — through
two readers in arbitrary positions, which `iter_records()` restarts by
re-seeking to the header length, or through two eager `read()` calls —
produces identical record sequences. -/
theorem claim_C9 (r1 r2 : Reader) (hb : r1.bytes = r2.bytes)
    (hm : r1.memoState = r2.memoState) :
    r1.iterRecords = r2.iterRecords ∧
      readTable r1.bytes r1.memoState = readTable r2.bytes r2.memoState := by
  obtain ⟨b1, m1, p1⟩ := r1
  obtain ⟨b2, m2, p2⟩ := r2
  simp only at hb hm
  subst hb
  subst hm
  exact ⟨rfl, rfl⟩

/-- Bytes of a minimal zero-field zero-record table, used to exercise the
reader. -/
def sampleReaderBytes : List Nat :=
  [3, 100, 1, 1, 0, 0, 0, 0, 33, 0, 1, 0] ++ List.replicate 20 0 ++ [13]

theorem claim_C9_witness :
    (Reader.mk sampleReaderBytes .missing 0).iterRecords
      = (Reader.mk sampleReaderBytes .missing 99).iterRecords ∧
    readTable (Reader.mk sampleReaderBytes .missing 0).bytes
        (Reader.mk sampleReaderBytes .missing 0).memoState
      = readTable (Reader.mk sampleReaderBytes .missing 99).bytes
        (Reader.mk sampleReaderBytes .missing 99).memoState :=
  claim_C9 _ _ rfl rfl

/-- C10: formatting any value of the `Error` type via the Display
implementation produces exactly the same string as its Debug
representation, for every error kind. -/
theorem claim_C10 : ∀ e : Error, e.displayString = e.debugString := fun _ => rfl

/-- C5: for a Memo-typed field, a non-empty non-zero block reference fails
with `MissingMemoFile` when no companion memo file was found at open time
and with `ErrorOpeningMemoFile` when it exists but could not be opened,
while a blank or zero reference decodes to not set under every memo state,
i.e. without any memo-file access. -/
theorem claim_C5 :
    (∀ (info : FieldInfo) (st : MemoState) (w : Nat), info.fieldType = .memo →
      decodeValue info (List.replicate w 32) st = .ok (.memo none)) ∧
    (∀ (info : FieldInfo) (st : MemoState) (w : Nat), info.fieldType = .memo →
      decodeValue info (padLeftSpaces w (natDigits 0)) st = .ok (.memo none)) ∧
    (∀ (info : FieldInfo) (idx w : Nat), info.fieldType = .memo → 0 < idx →
      decodeValue info (padLeftSpaces w (natDigits idx)) .missing
        = .error .missingMemoFile) ∧
    (∀ (info : FieldInfo) (idx w : Nat) (msg : String), info.fieldType = .memo → 0 < idx →
      decodeValue info (padLeftSpaces w (natDigits idx)) (.openFailed msg)
        = .error (.errorOpeningMemoFile msg)) := by
  have hnospace : ∀ n : Nat, ∀ b ∈ natDigits n, b ≠ 32 := by
    intro n b hb
    have := natDigits_mem hb
    omega
  refine ⟨?_, ?_, ?_, ?_⟩
  · intro info st w hty
    simp [decodeValue, hty, trimBoth_replicate_spaces]
  · intro info st w hty
    simp only [decodeValue, hty]
    rw [trimBoth_pad_no_space (hnospace 0), show natDigits 0 = [48] from rfl,
      if_neg (by decide), show parseUnsigned [48] = some 0 from rfl]
  · intro info idx w hty hpos
    obtain ⟨k, rfl⟩ : ∃ k, idx = k + 1 := ⟨idx - 1, by omega⟩
    simp only [decodeValue, hty]
    rw [trimBoth_pad_no_space (hnospace (k + 1)), if_neg (natDigits_ne_nil (k + 1)),
      parseUnsigned_natDigits]
  · intro info idx w msg hty hpos
    obtain ⟨k, rfl⟩ : ∃ k, idx = k + 1 := ⟨idx - 1, by omega⟩
    simp only [decodeValue, hty]
    rw [trimBoth_pad_no_space (hnospace (k + 1)), if_neg (natDigits_ne_nil (k + 1)),
      parseUnsigned_natDigits]

/-- A concrete ten-byte Memo field named "M". -/
def c5Info : FieldInfo :=
  { name := [77], fieldType := .memo, length := 10, decimalCount := 0, flags := 0 }

theorem claim_C5_witness :
    decodeValue c5Info (List.replicate 10 32) .missing = .ok (.memo none) ∧
    decodeValue c5Info (padLeftSpaces 10 (natDigits 0)) .missing = .ok (.memo none) ∧
    decodeValue c5Info (padLeftSpaces 10 (natDigits 1)) .missing
      = .error .missingMemoFile ∧
    decodeValue c5Info (padLeftSpaces 10 (natDigits 1)) (.openFailed "locked")
      = .error (.errorOpeningMemoFile "locked") :=
  ⟨claim_C5.1 c5Info .missing 10 rfl, claim_C5.2.1 c5Info .missing 10 rfl,
    claim_C5.2.2.1 c5Info 1 10 rfl (by decide),
    claim_C5.2.2.2 c5Info 1 10 "locked" rfl (by decide)⟩

/-- C6: the single byte of a Logical field decodes T, t, Y, y to true, F,
f, N, n to false, question mark and space to not set, every other byte to
an error; and writing any tri-state Logical value then decoding its slot
reproduces the same tri-state. -/
theorem claim_C6 :
    (∀ b : Nat, (b = 84 ∨ b = 116 ∨ b = 89 ∨ b = 121) →
      decodeLogicalByte b = .ok (some true)) ∧
    (∀ b : Nat, (b = 70 ∨ b = 102 ∨ b = 78 ∨ b = 110) →
      decodeLogicalByte b = .ok (some false)) ∧
    (decodeLogicalByte 63 = .ok none ∧ decodeLogicalByte 32 = .ok none) ∧
    (∀ b : Nat, ¬(b = 84 ∨ b = 116 ∨ b = 89 ∨ b = 121 ∨ b = 70 ∨ b = 102 ∨ b = 78 ∨
        b = 110 ∨ b = 63 ∨ b = 32) →
      decodeLogicalByte b = .error (.message "invalid logical value byte")) ∧
    (∀ (t : Option Bool) (info : FieldInfo) (m : MemoFile) (st : MemoState),
      info.fieldType = .logical →
        writeValue info (.logical t) m = .ok ([logicalByte t], m) ∧
        decodeValue info [logicalByte t] st = .ok (.logical t)) := by
  refine ⟨?_, ?_, ⟨rfl, rfl⟩, ?_, ?_⟩
  · rintro b (rfl | rfl | rfl | rfl) <;> rfl
  · rintro b (rfl | rfl | rfl | rfl) <;> rfl
  · intro b hb
    push_neg at hb
    obtain ⟨h1, h2, h3, h4, h5, h6, h7, h8, h9, h10⟩ := hb
    rw [decodeLogicalByte, if_neg (by tauto), if_neg (by tauto), if_neg (by tauto)]
  · intro t info m st hty
    constructor
    · simp only [writeValue, if_neg (show ¬(fieldTypeOf (.logical t) ≠ info.fieldType) by
        simp [fieldTypeOf, hty])]
    · simp only [decodeValue, hty]
      cases t with
      | none => rfl
      | some bv => cases bv <;> rfl

/-- A concrete one-byte Logical field named "L". -/
def c6Info : FieldInfo :=
  { name := [76], fieldType := .logical, length := 1, decimalCount := 0, flags := 0 }

theorem claim_C6_witness :
    decodeLogicalByte 116 = .ok (some true) ∧
    decodeLogicalByte 110 = .ok (some false) ∧
    decodeLogicalByte 88 = .error (.message "invalid logical value byte") ∧
    (writeValue c6Info (.logical (some true)) { blocks := [] }
        = .ok ([84], { blocks := [] }) ∧
      decodeValue c6Info [84] .missing = .ok (.logical (some true))) :=
  ⟨claim_C6.1 116 (by tauto), claim_C6.2.1 110 (by tauto),
    claim_C6.2.2.2.1 88 (by decide),
    claim_C6.2.2.2.2 (some true) c6Info { blocks := [] } .missing rfl⟩

/-- C7: an all-space Numeric or Float slot decodes to not set, and a
non-blank slot whose trimmed text does not parse fails with a wrapped
`ParseFloatError`, never silently decoding to a number. -/
theorem claim_C7 :
    (∀ (info : FieldInfo) (st : MemoState) (w : Nat), info.fieldType = .numeric →
      decodeValue info (List.replicate w 32) st = .ok (.numeric none)) ∧
    (∀ (info : FieldInfo) (st : MemoState) (w : Nat), info.fieldType = .float →
      decodeValue info (List.replicate w 32) st = .ok (.float none)) ∧
    (∀ (info : FieldInfo) (st : MemoState) (slot : List Nat), info.fieldType = .numeric →
      trimBoth slot ≠ [] → parseDecimal (trimBoth slot) = none →
      decodeValue info slot st = .error (.parseFloatError "invalid float literal")) ∧
    (∀ (info : FieldInfo) (st : MemoState) (slot : List Nat), info.fieldType = .float →
      trimBoth slot ≠ [] → parseDecimal (trimBoth slot) = none →
      decodeValue info slot st = .error (.parseFloatError "invalid float literal")) := by
  refine ⟨?_, ?_, ?_, ?_⟩
  · intro info st w hty
    simp [decodeValue, hty, trimBoth_replicate_spaces]
  · intro info st w hty
    simp [decodeValue, hty, trimBoth_replicate_spaces]
  · intro info st slot hty hne hparse
    simp only [decodeValue, hty]
    rw [if_neg hne, hparse]
  · intro info st slot hty hne hparse
    simp only [decodeValue, hty]
    rw [if_neg hne, hparse]

/-- A concrete Numeric(6,1) field named "N". -/
def c7Info : FieldInfo :=
  { name := [78], fieldType := .numeric, length := 6, decimalCount := 1, flags := 0 }

/-- A concrete Float(6,1) field named "F". -/
def c7FloatInfo : FieldInfo :=
  { name := [70], fieldType := .float, length := 6, decimalCount := 1, flags := 0 }

theorem claim_C7_witness :
    decodeValue c7Info (List.replicate 6 32) .missing = .ok (.numeric none) ∧
    decodeValue c7FloatInfo (List.replicate 6 32) .missing = .ok (.float none) ∧
    decodeValue c7Info [97, 98] .missing = .error (.parseFloatError "invalid float literal") ∧
    decodeValue c7FloatInfo [97, 98] .missing
      = .error (.parseFloatError "invalid float literal") :=
  ⟨claim_C7.1 c7Info .missing 6 rfl, claim_C7.2.1 c7FloatInfo .missing 6 rfl,
    claim_C7.2.2.1 c7Info .missing [97, 98] rfl (by decide) (by decide),
    claim_C7.2.2.2 c7FloatInfo .missing [97, 98] rfl (by decide) (by decide)⟩

/-- C4: with the cursor at or past the last declared field,
`read_next_field_as` fails with `EndOfRecord` (so an (n+1)-th call on an
n-field schema fails); a target needing more fields than the schema
declares fails with `NotEnoughFields`; and a successful call advances the
cursor by exactly one while changing nothing else, so field slots can
only be read forward, never out of order or twice. -/
theorem claim_C4 (it : FieldIterator) :
    (it.fields.length ≤ it.cursor → readNextFieldAs it = .error .endOfRecord) ∧
    (∀ arity, it.fields.length < arity →
      readRecordAs arity it = .error .notEnoughFields) ∧
    (∀ (v : FieldValue) (it' : FieldIterator), readNextFieldAs it = .ok (v, it') →
      it'.cursor = it.cursor + 1 ∧ it'.fields = it.fields ∧
        it'.recordBytes = it.recordBytes ∧ it'.memoState = it.memoState) := by
  refine ⟨?_, ?_, ?_⟩
  · intro h
    simp only [readNextFieldAs, List.getElem?_eq_none h]
  · intro arity h
    rw [readRecordAs, if_pos h]
  · intro v it' h
    rcases hget : it.fields[it.cursor]? with _ | info
    · simp only [readNextFieldAs, hget] at h
      exact Except.noConfusion h
    · simp only [readNextFieldAs, hget] at h
      rcases hdec : decodeValue info
          ((it.recordBytes.drop (slotOffset it.fields it.cursor)).take info.length)
          it.memoState with e | v''
      · rw [hdec] at h
        simp [exceptBind_error] at h
      · rw [hdec, exceptBind_ok] at h
        simp only [Except.ok.injEq, Prod.mk.injEq] at h
        obtain ⟨-, h2⟩ := h
        subst h2
        exact ⟨rfl, rfl, rfl, rfl⟩

/-- A concrete one-field iterator over a decoded Logical record, with its
cursor at the start. -/
def c4IterStart : FieldIterator :=
  { fields := [c6Info], recordBytes := [84], memoState := .missing, cursor := 0 }

/-- The same iterator after its single successful read. -/
def c4IterNext : FieldIterator :=
  { fields := [c6Info], recordBytes := [84], memoState := .missing, cursor := 1 }

theorem claim_C4_witness :
    readNextFieldAs c4IterNext = .error .endOfRecord ∧
    readRecordAs 2 c4IterNext = .error .notEnoughFields ∧
    (c4IterNext.cursor = c4IterStart.cursor + 1 ∧ c4IterNext.fields = c4IterStart.fields ∧
      c4IterNext.recordBytes = c4IterStart.recordBytes ∧
      c4IterNext.memoState = c4IterStart.memoState) :=
  ⟨(claim_C4 c4IterNext).1 (by decide), (claim_C4 c4IterNext).2.1 2 (by decide),
    (claim_C4 c4IterStart).2.2 (.logical (some true)) c4IterNext (by decide)⟩

/-- Write a table and read the produced bytes straight back through the
produced memo file. -/
def roundTrip (fields : List FieldInfo) (records : List (List FieldValue)) :
    Except Error (List (List FieldValue)) :=
  match writeTable fields records with
  | .ok (bytes, m) => readTable bytes (.opened m)
  | .error e => .error e

/-- C1 (amended): for every builder-validated schema within the format's
numeric bounds and every record sequence whose values match the declared
types, fit the declared widths and are in canonical form (set Character
payloads non-empty and not ending in a space), writing the records and
reading the produced bytes back yields values equal to the originals for
every field, Memo fields included (their content is compared, the block
reference never escapes the reader). -/
theorem claim_C1 (fields : List FieldInfo) (records : List (List FieldValue))
    (hvalid : fields.all FieldInfo.validB = true)
    (hall : records.all (fun r => recordFitsB fields r && r.all canonValueB) = true)
    (hhl : 32 + 32 * fields.length + 1 < 2 ^ 16) (hrl : 1 + sumLen fields < 2 ^ 16)
    (hrc : records.length < 2 ^ 32) (hcap : records.length * fields.length < 10 ^ 10) :
    ∃ bytes m, writeTable fields records = .ok (bytes, m) ∧
      readTable bytes (.opened m) = .ok records := by
  obtain ⟨bytes, m, h1, -, h3⟩ := writeTable_spec hvalid hall hhl hrl hrc hcap
  exact ⟨bytes, m, h1, h3⟩

/-- One Character(2) field named "A". -/
def c1CexFields : List FieldInfo := [c3Info]

/-- One record holding the two-byte Character payload "a " (with a
trailing space), which matches the declared type and fits the declared
width. -/
def c1CexRecords : List (List FieldValue) := [[.character (some [97, 32])]]

theorem claim_C1_counterexample :
    c1CexFields.all FieldInfo.validB = true ∧
    c1CexRecords.all (fun r => recordFitsB c1CexFields r) = true ∧
    roundTrip c1CexFields c1CexRecords = .ok [[.character (some [97])]] ∧
    ([[FieldValue.character (some [97])]] : List (List FieldValue)) ≠ c1CexRecords := by
  exact ⟨by decide, by decide, by decide, by decide⟩

/-- The scenario schema: Character(10) "Nick" and Numeric(8,1) "Age". -/
def sampleFields : List FieldInfo :=
  [{ name := [78, 105, 99, 107], fieldType := .character, length := 10,
     decimalCount := 0, flags := 0 },
   { name := [65, 103, 101], fieldType := .numeric, length := 8,
     decimalCount := 1, flags := 0 }]

/-- The scenario record: "Yoshi" and 32.0 (mantissa 320 at one decimal). -/
def sampleRecords : List (List FieldValue) :=
  [[.character (some [89, 111, 115, 104, 105]), .numeric (some (false, 320))]]

theorem claim_C1_witness :
    (sampleFields.all FieldInfo.validB = true ∧
      sampleRecords.all (fun r => recordFitsB sampleFields r && r.all canonValueB) = true ∧
      32 + 32 * sampleFields.length + 1 < 2 ^ 16 ∧ 1 + sumLen sampleFields < 2 ^ 16 ∧
      sampleRecords.length < 2 ^ 32 ∧
      sampleRecords.length * sampleFields.length < 10 ^ 10) ∧
    (∃ bytes m, writeTable sampleFields sampleRecords = .ok (bytes, m) ∧
      readTable bytes (.opened m) = .ok sampleRecords) :=
  ⟨⟨by decide, by decide, by decide, by decide, by decide, by decide⟩,
    claim_C1 sampleFields sampleRecords (by decide) (by decide) (by decide) (by decide)
      (by decide) (by decide)⟩

/-- C2 (amended): every table produced by the writer has a header
satisfying `header_length = 32 + 32*len(fields) + 1` and
`record_length = 1 + sum(field.length)`, and re-parsing the written bytes
recovers exactly that header (so a Reader over a writer-produced table
holds a header with these invariants; a Reader over foreign bytes may
hold a header violating them, see the counterexample). -/
theorem claim_C2 (fields : List FieldInfo) (records : List (List FieldValue))
    (hvalid : fields.all FieldInfo.validB = true)
    (hall : records.all (fun r => recordFitsB fields r && r.all canonValueB) = true)
    (hhl : 32 + 32 * fields.length + 1 < 2 ^ 16) (hrl : 1 + sumLen fields < 2 ^ 16)
    (hrc : records.length < 2 ^ 32) (hcap : records.length * fields.length < 10 ^ 10) :
    ∃ bytes m, writeTable fields records = .ok (bytes, m) ∧
      parseHeader bytes = .ok (mkHeader fields records.length) ∧
      (mkHeader fields records.length).headerLength
        = 32 + 32 * (mkHeader fields records.length).fields.length + 1 ∧
      (mkHeader fields records.length).recordLength
        = 1 + sumLen (mkHeader fields records.length).fields := by
  obtain ⟨bytes, m, h1, h2, -⟩ := writeTable_spec hvalid hall hhl hrl hrc hcap
  exact ⟨bytes, m, h1, h2, rfl, rfl⟩

/-- A syntactically parseable 33-byte file whose stored header length (99)
and record length (7) contradict the fixed-width invariants for its empty
descriptor array. -/
def c2CexBytes : List Nat :=
  [3, 100, 1, 1, 0, 0, 0, 0, 99, 0, 7, 0] ++ List.replicate 20 0 ++ [13]

/-- The header a reader holds after opening `c2CexBytes`. -/
def c2CexHeader : Header :=
  { version := 3, updYear := 100, updMonth := 1, updDay := 1, recordCount := 0,
    headerLength := 99, recordLength := 7, fields := [] }

theorem claim_C2_counterexample :
    parseHeader c2CexBytes = .ok c2CexHeader ∧
    (Reader.mk c2CexBytes .missing 0).iterRecords = .ok [] ∧
    c2CexHeader.headerLength ≠ 32 + 32 * c2CexHeader.fields.length + 1 ∧
    c2CexHeader.recordLength ≠ 1 + sumLen c2CexHeader.fields := by
  exact ⟨by decide, by decide, by decide, by decide⟩

theorem claim_C2_witness :
    (sampleFields.all FieldInfo.validB = true ∧
      sampleRecords.all (fun r => recordFitsB sampleFields r && r.all canonValueB) = true) ∧
    (∃ bytes m, writeTable sampleFields sampleRecords = .ok (bytes, m) ∧
      parseHeader bytes = .ok (mkHeader sampleFields sampleRecords.length) ∧
      (mkHeader sampleFields sampleRecords.length).headerLength
        = 32 + 32 * (mkHeader sampleFields sampleRecords.length).fields.length + 1 ∧
      (mkHeader sampleFields sampleRecords.length).recordLength
        = 1 + sumLen (mkHeader sampleFields sampleRecords.length).fields) :=
  ⟨⟨by decide, by decide⟩,
    claim_C2 sampleFields sampleRecords (by decide) (by decide) (by decide) (by decide)
      (by decide) (by decide)⟩

end Dbase
